import Mathlib

/-!
Shallow embedding of `dlstorage/partition.py` (deeplens-storage).

The module computes an optimal temporal segmentation of a tagged video:
it enumerates candidate cut points from tag-interval endpoints, scores every
candidate segment, builds a weighted graph and runs a hand-rolled Dijkstra
from vertex `0` to vertex `no_frames`.

Modelling conventions:
* Python `int` is `Int`.
* Python `float` costs are modelled as exact values in an arbitrary linear
  ordered commutative ring `α`: the source only ever adds, multiplies and
  compares costs (it never divides), so every cost computation lives in
  such a ring.  Universal claims are proved for every `α` (in particular
  `ℚ`, the exact idealisation of float arithmetic); concrete scenarios,
  whose inputs are small integers on which float arithmetic is exact, are
  evaluated at `α := Int`.
* Python `set` iteration order and `dict` insertion order are modelled by
  lists: `set.add` appends if absent, a `dict` assignment overwrites in
  place or appends.  Quantifying over input list orders models the
  unspecified iteration order of Python's unordered containers.
* Fallible operations (`set.remove`, `dict[...]` reads) return
  `Except PyErr`; `PyErr.keyError` models Python's `KeyError`.
* The `while True` loop of `dijkstra` is driven by fuel; the fuel supplied
  by `dijkstra` is shown to be sufficient in the cases the claims need
  (the Python loop always either breaks, raises `KeyError`, or shrinks the
  unvisited set).
-/

namespace DLS

/-- A tag occurrence `(label, start, end)` over the half-open interval
`[start, end)`, as in `partition.py`. -/
abbrev Tag := String × Int × Int

inductive PyErr : Type
  | keyError : PyErr
  | assertionError : PyErr
  | fuelOut : PyErr
deriving DecidableEq, Repr

variable {α : Type} [LinearOrderedCommRing α]

/-- Python `dict` assignment `d[k] = v`: overwrite in place, else append. -/
def dinsert {κ β : Type} [DecidableEq κ] : List (κ × β) → κ → β → List (κ × β)
  | [], k, v => [(k, v)]
  | (k', v') :: rest, k, v =>
      if k' = k then (k, v) :: rest else (k', v') :: dinsert rest k v

/-- Python `dict` read `d[k]` / membership `k in d`. -/
def dget {κ β : Type} [DecidableEq κ] : List (κ × β) → κ → Option β
  | [], _ => none
  | (k', v') :: rest, k => if k' = k then some v' else dget rest k

/-- Python `set.add`: append if absent (list order models iteration order). -/
def sadd {κ : Type} [DecidableEq κ] (l : List κ) (x : κ) : List κ :=
  if x ∈ l then l else l ++ [x]

/-- Step 1 of `partition`: `cutting_points = {0, no_frames}` plus every tag's
`start` and `end`. -/
def cuttingPoints (tags : List Tag) (noFrames : Int) : List Int :=
  tags.foldl (fun cps tag => sadd (sadd cps tag.2.1) tag.2.2) (sadd (sadd [] 0) noFrames)

/-- Step 2 of `partition`: all pairs of cutting points with `start < end`,
seeded with the cut `penalty` as the initial cost component. -/
def possibleSegments (cps : List Int) (penalty : α) : List (α × Int × Int) :=
  cps.foldl (fun acc s =>
    cps.foldl (fun acc2 e => if s < e then sadd acc2 (penalty, s, e) else acc2) acc) []

/-- Weight lookup: `cost_table[label]` if present, else `default_cost`. -/
def tagWeight (costTable : List (String × α)) (defaultCost : α) (label : String) : α :=
  match dget costTable label with
  | some w => w
  | none => defaultCost

/-- Step 3, inner loop of `partition`: fold one segment triple
`(cost, start, end)` over every tag, adding `weight(label) * (end - start)`
for each tag whose interval is not disjoint from the segment. -/
def weighSegment (tags : List Tag) (costTable : List (String × α)) (defaultCost : α)
    (seg : α × Int × Int) : α × Int × Int :=
  tags.foldl (fun segment tag =>
    if tag.2.1 ≥ segment.2.2 ∨ tag.2.2 ≤ segment.2.1 then segment
    else (segment.1 + tagWeight costTable defaultCost tag.1 * ((segment.2.2 - segment.2.1 : Int) : α),
          segment.2.1, segment.2.2)) seg

/-- Step 3 of `partition`: the set `weighted_segments`. -/
def weightedSegments (tags : List Tag) (costTable : List (String × α)) (defaultCost : α)
    (possible : List (α × Int × Int)) : List (α × Int × Int) :=
  possible.foldl (fun ws seg => sadd ws (weighSegment tags costTable defaultCost seg)) []

/-- Step 4, first half: `graph = {vertex[1]: dict() for vertex in weighted_segments}`. -/
def graphKeys (ws : List (α × Int × Int)) : List (Int × List (Int × α)) :=
  ws.foldl (fun g seg => dinsert g seg.2.1 []) []

/-- Step 4, second half: `graph[segment[1]].update({segment[2]: segment[0]})`.
The key is always present (it was inserted by `graphKeys`), so the `none`
branch is unreachable. -/
def buildGraph (ws : List (α × Int × Int)) : List (Int × List (Int × α)) :=
  ws.foldl (fun g seg =>
    match dget g seg.2.1 with
    | some adj => dinsert g seg.2.1 (dinsert adj seg.2.2 seg.1)
    | none => g) (graphKeys ws)

/-- `dijkstra`, initial lines: collect every edge start and edge end into
`unvisited`. -/
def initUnvisited (graph : List (Int × List (Int × α))) : List Int :=
  graph.foldl (fun uv ent => ent.2.foldl (fun uv2 e => sadd uv2 e.1) (sadd uv ent.1)) []

/-- Body of the relaxation loop, for one neighbor `nb = (neighbor, cost)`:
`if neighbor not in dist or dist[current] + cost < dist[neighbor]: ...`.
Reading `dist[current]` raises `KeyError` when absent, exactly as in
Python. -/
def relaxStep (current : Int) (dp : List (Int × α) × List (Int × Int)) (nb : Int × α) :
    Except PyErr (List (Int × α) × List (Int × Int)) := do
  let dc ← match dget dp.1 current with
    | some x => Except.ok x
    | none => Except.error PyErr.keyError
  match dget dp.1 nb.1 with
  | none => Except.ok (dinsert dp.1 nb.1 (dc + nb.2), dinsert dp.2 nb.1 current)
  | some dn =>
      if dc + nb.2 < dn then
        Except.ok (dinsert dp.1 nb.1 (dc + nb.2), dinsert dp.2 nb.1 current)
      else Except.ok dp

/-- One relaxation sweep: `for neighbor in graph[current]: ...`. -/
def relax (current : Int) (adj : List (Int × α)) (dist : List (Int × α))
    (prev : List (Int × Int)) : Except PyErr (List (Int × α) × List (Int × Int)) :=
  adj.foldlM (relaxStep current) (dist, prev)

/-- Body of the minimum-selection scan, for one unvisited vertex:
`if min_dist == None or dist[vertex] < min_dist: ...`.  Reading
`dist[vertex]` raises `KeyError` when absent, exactly as in Python. -/
def selStep (dist : List (Int × α)) (st : Option α × Int) (v : Int) :
    Except PyErr (Option α × Int) := do
  let dv ← match dget dist v with
    | some x => Except.ok x
    | none => Except.error PyErr.keyError
  match st.1 with
  | none => Except.ok (some dv, v)
  | some md => if dv < md then Except.ok (some dv, v) else Except.ok st

/-- The linear scan for the minimum-distance unvisited vertex; `current` is
left unchanged when `unvisited` is empty, as in Python. -/
def selectMin (dist : List (Int × α)) (unvisited : List Int) (current : Int) :
    Except PyErr Int := do
  let st ← unvisited.foldlM (selStep dist) ((none : Option α), current)
  Except.ok st.2

/-- The `while True` loop of `dijkstra`, entered with `current ≠ end`
(the break check sits after the selection).  The body removes `current`
from `unvisited` (KeyError if absent), relaxes `graph[current]`
(KeyError if `current` is not a graph key), selects the next vertex and
breaks when it equals `end`. -/
def dijkstraLoop (graph : List (Int × List (Int × α))) (endV : Int) :
    Nat → List Int → List (Int × α) → List (Int × Int) → Int →
    Except PyErr (List (Int × α) × List (Int × Int) × Int)
  | 0, _, _, _, _ => Except.error PyErr.fuelOut
  | fuel + 1, unvisited, dist, prev, current => do
    if current ∈ unvisited then
      let unvisited' := unvisited.erase current
      let adj ← match dget graph current with
        | some a => Except.ok a
        | none => Except.error PyErr.keyError
      let dp ← relax current adj dist prev
      let current' ← selectMin dp.1 unvisited' current
      if current' = endV then Except.ok (dp.1, dp.2, current')
      else dijkstraLoop graph endV fuel unvisited' dp.1 dp.2 current'
    else Except.error PyErr.keyError

/-- The path-reconstruction loop: `while current != start: path.append(prev[current])`,
then `path.reverse()`. -/
def reconLoop (prev : List (Int × Int)) (startV : Int) :
    Nat → Int → List Int → Except PyErr (List Int)
  | 0, _, _ => Except.error PyErr.fuelOut
  | fuel + 1, current, path =>
    if current = startV then Except.ok path.reverse
    else match dget prev current with
      | none => Except.error PyErr.keyError
      | some p => reconLoop prev startV fuel p (path ++ [p])

/-- Step 5 of `partition`: the hand-rolled `dijkstra(graph, start, end)`. -/
def dijkstra (graph : List (Int × List (Int × α))) (startV endV : Int) :
    Except PyErr (List Int) := do
  let unvisited := initUnvisited graph
  let dist := dinsert ([] : List (Int × α)) startV 0
  let res ← dijkstraLoop graph endV (unvisited.length + 2) unvisited dist [] startV
  if res.2.2 = endV then
    reconLoop res.2.1 startV (res.2.1.length + 2) endV [endV]
  else Except.error PyErr.assertionError

/-- The entry point `partition(tags, no_frames, cost_table, default_cost, penalty)`.
The source performs no input validation whatsoever: it goes straight to the
five steps above. -/
def partition (tags : List Tag) (noFrames : Int) (costTable : List (String × α))
    (defaultCost : α) (penalty : α) : Except PyErr (List Int) :=
  let cps := cuttingPoints tags noFrames
  let ps := possibleSegments cps penalty
  let ws := weightedSegments tags costTable defaultCost ps
  let graph := buildGraph ws
  dijkstra graph 0 noFrames

/-- The graph built by `partition` for a given input, factored out for
statements about the segment graph. -/
def partitionGraph (tags : List Tag) (noFrames : Int) (costTable : List (String × α))
    (defaultCost : α) (penalty : α) : List (Int × List (Int × α)) :=
  buildGraph (weightedSegments tags costTable defaultCost
    (possibleSegments (cuttingPoints tags noFrames) penalty))

/-- Weight of the edge `u → v` in an adjacency structure: `graph[u][v]`. -/
def edgeWeight (g : List (Int × List (Int × α))) (u v : Int) : Option α :=
  (dget g u).bind (fun adj => dget adj v)

/-- The skip cost the source assigns to the segment `[s, e)`: for every tag
interval not disjoint from the segment, add `weight(label) * (e - s)` — the
full segment length.  This is the summation computed by the step-3 fold. -/
def segCost (tags : List Tag) (costTable : List (String × α)) (defaultCost : α)
    (s e : Int) : α :=
  ((tags.filter (fun t => ¬(t.2.1 ≥ e ∨ t.2.2 ≤ s))).map
    (fun t => tagWeight costTable defaultCost t.1 * ((e - s : Int) : α))).sum

/-- The segment-cost formula asserted by the spec's data-model section: for
every tag interval intersecting `[s, e)`, add `weight(label)` times the
overlap length `min(e, tag.end) - max(s, tag.start)`.  Written from the
spec's words, to be compared with `segCost` (the source's computation). -/
def overlapSegCost (tags : List Tag) (costTable : List (String × α)) (defaultCost : α)
    (s e : Int) : α :=
  ((tags.filter (fun t => ¬(t.2.1 ≥ e ∨ t.2.2 ≤ s))).map
    (fun t => tagWeight costTable defaultCost t.1 * ((min e t.2.2 - max s t.2.1 : Int) : α))).sum

/-- `l` is a path from `s` to `t` in the graph `g`: nonempty, starts at `s`,
ends at `t`, and consecutive vertices are joined by edges of `g`. -/
def IsPathFrom (g : List (Int × List (Int × α))) (s t : Int) (l : List Int) : Prop :=
  l.head? = some s ∧ l.getLast? = some t ∧
    l.Chain' (fun u v => (edgeWeight g u v).isSome)

/-- Total weight of a path (sum of its edge weights). -/
def pathCost (g : List (Int × List (Int × α))) : List Int → α
  | u :: v :: rest => (edgeWeight g u v).getD 0 + pathCost g (v :: rest)
  | _ => 0

/-- `d` is the shortest-path distance from `0` to `v` in `g`: it is a lower
bound on the cost of every path and is attained by some path. -/
def ReachesMin (g : List (Int × List (Int × α))) (v : Int) (d : α) : Prop :=
  (∀ p, IsPathFrom g 0 v p → d ≤ pathCost g p) ∧
    ∃ p, IsPathFrom g 0 v p ∧ pathCost g p = d

end DLS

namespace DLS

/-! ### Basic properties of the dict / set models -/

variable {α : Type} [LinearOrderedCommRing α]

theorem mem_sadd {κ : Type} [DecidableEq κ] {l : List κ} {x y : κ} :
    y ∈ sadd l x ↔ y ∈ l ∨ y = x := by
  unfold sadd
  split
  · next hx =>
    constructor
    · exact fun h => Or.inl h
    · rintro (h | rfl)
      · exact h
      · exact hx
  · simp

theorem sadd_nodup {κ : Type} [DecidableEq κ] {l : List κ} (h : l.Nodup) (x : κ) :
    (sadd l x).Nodup := by
  unfold sadd
  split
  · exact h
  · next hx => simp [List.nodup_append, h, hx]

theorem mem_of_mem_sadd_base {κ : Type} [DecidableEq κ] {l : List κ} {x y : κ}
    (h : y ∈ l) : y ∈ sadd l x :=
  mem_sadd.mpr (Or.inl h)

theorem dget_dinsert_self {κ β : Type} [DecidableEq κ] (l : List (κ × β)) (k : κ) (v : β) :
    dget (dinsert l k v) k = some v := by
  induction l with
  | nil => simp [dinsert, dget]
  | cons kv rest ih =>
    rw [dinsert]
    split
    · simp [dget]
    · next hne => rw [dget, if_neg hne]; exact ih

theorem dget_dinsert_ne {κ β : Type} [DecidableEq κ] (l : List (κ × β)) (k k₂ : κ) (v : β)
    (h : k ≠ k₂) : dget (dinsert l k v) k₂ = dget l k₂ := by
  induction l with
  | nil => simp [dinsert, dget, h]
  | cons kv rest ih =>
    obtain ⟨k1, v1⟩ := kv
    by_cases he : k1 = k
    · subst he
      rw [dinsert, if_pos rfl, dget, if_neg h, dget, if_neg h]
    · rw [dinsert, if_neg he, dget, dget]
      by_cases hc : k1 = k₂
      · simp [hc]
      · simp [hc, ih]

theorem dget_mem {κ β : Type} [DecidableEq κ] {l : List (κ × β)} {k : κ} {v : β}
    (h : dget l k = some v) : (k, v) ∈ l := by
  induction l with
  | nil => simp [dget] at h
  | cons kv rest ih =>
    rw [dget] at h
    split at h
    · next he => obtain ⟨rfl⟩ := Option.some_inj.mp h; subst he; exact List.mem_cons_self _ _
    · exact List.mem_cons_of_mem _ (ih h)

/-- The keys on which `dget` succeeds after a `dinsert`. -/
theorem dget_dinsert_isSome {κ β : Type} [DecidableEq κ] (l : List (κ × β)) (k k₂ : κ) (v : β) :
    (dget (dinsert l k v) k₂).isSome ↔ (dget l k₂).isSome ∨ k₂ = k := by
  by_cases h : k = k₂
  · subst h; simp [dget_dinsert_self]
  · rw [dget_dinsert_ne l k k₂ v h]
    constructor
    · exact Or.inl
    · rintro (hs | he)
      · exact hs
      · exact absurd he.symm h

theorem dget_none_iff {κ β : Type} [DecidableEq κ] (l : List (κ × β)) (k : κ) :
    dget l k = none ↔ k ∉ l.map Prod.fst := by
  induction l with
  | nil => simp [dget]
  | cons kv rest ih =>
    obtain ⟨k1, v1⟩ := kv
    rw [dget]
    by_cases he : k1 = k
    · subst he; simp
    · rw [if_neg he, ih]
      simp only [List.map_cons, List.mem_cons]
      constructor
      · intro hk hc
        rcases hc with hc | hc
        · exact he hc.symm
        · exact hk hc
      · intro hk hc
        exact hk (Or.inr hc)

theorem mem_keys_dinsert {κ β : Type} [DecidableEq κ] (l : List (κ × β)) (k k₂ : κ) (v : β) :
    k₂ ∈ (dinsert l k v).map Prod.fst ↔ k₂ ∈ l.map Prod.fst ∨ k₂ = k := by
  induction l with
  | nil => simp [dinsert]
  | cons kv rest ih =>
    rw [dinsert]
    split
    · next he => simp [← he]; tauto
    · simp [ih]; tauto

theorem keys_nodup_dinsert {κ β : Type} [DecidableEq κ] {l : List (κ × β)}
    (h : (l.map Prod.fst).Nodup) (k : κ) (v : β) : ((dinsert l k v).map Prod.fst).Nodup := by
  induction l with
  | nil => simp [dinsert]
  | cons kv rest ih =>
    rw [dinsert]
    split
    · next he => simpa [← he] using h
    · next he =>
      simp only [List.map_cons, List.nodup_cons] at h ⊢
      refine ⟨fun hc => ?_, ih h.2⟩
      rcases (mem_keys_dinsert rest k kv.1 v).mp hc with hm | hm
      · exact h.1 hm
      · exact he hm

end DLS

namespace DLS

variable {α : Type} [LinearOrderedCommRing α]

/-! ### Cutting points and candidate segments -/

theorem mem_cuttingPoints_fold (l : List Tag) (init : List Int) (x : Int) :
    x ∈ l.foldl (fun cps tag => sadd (sadd cps tag.2.1) tag.2.2) init ↔
      x ∈ init ∨ ∃ t ∈ l, x = t.2.1 ∨ x = t.2.2 := by
  induction l generalizing init with
  | nil => simp
  | cons t l ih =>
    rw [List.foldl_cons, ih]
    simp only [mem_sadd, List.exists_mem_cons_iff]
    aesop

theorem mem_cuttingPoints {tags : List Tag} {noFrames x : Int} :
    x ∈ cuttingPoints tags noFrames ↔
      x = 0 ∨ x = noFrames ∨ ∃ t ∈ tags, x = t.2.1 ∨ x = t.2.2 := by
  rw [cuttingPoints, mem_cuttingPoints_fold]
  simp only [mem_sadd, List.not_mem_nil, false_or]
  aesop

theorem sadd_fold_nodup (l : List Tag) (init : List Int) (h : init.Nodup) :
    (l.foldl (fun cps tag => sadd (sadd cps tag.2.1) tag.2.2) init).Nodup := by
  induction l generalizing init with
  | nil => exact h
  | cons t l ih => exact ih _ (sadd_nodup (sadd_nodup h _) _)

theorem cuttingPoints_nodup (tags : List Tag) (noFrames : Int) :
    (cuttingPoints tags noFrames).Nodup :=
  sadd_fold_nodup tags _ (sadd_nodup (sadd_nodup List.nodup_nil 0) noFrames)

theorem zero_mem_cuttingPoints (tags : List Tag) (noFrames : Int) :
    (0 : Int) ∈ cuttingPoints tags noFrames :=
  mem_cuttingPoints.mpr (Or.inl rfl)

theorem noFrames_mem_cuttingPoints (tags : List Tag) (noFrames : Int) :
    noFrames ∈ cuttingPoints tags noFrames :=
  mem_cuttingPoints.mpr (Or.inr (Or.inl rfl))

theorem mem_possibleSegments_inner (cps : List Int) (pen : α) (s : Int)
    (init : List (α × Int × Int)) (seg : α × Int × Int) :
    seg ∈ cps.foldl (fun acc2 e => if s < e then sadd acc2 (pen, s, e) else acc2) init ↔
      seg ∈ init ∨ ∃ e ∈ cps, s < e ∧ seg = (pen, s, e) := by
  induction cps generalizing init with
  | nil => simp
  | cons c cps ih =>
    rw [List.foldl_cons, ih]
    by_cases hc : s < c
    · rw [if_pos hc]
      simp only [mem_sadd, List.exists_mem_cons_iff, hc, true_and]
      aesop
    · rw [if_neg hc]
      simp only [List.exists_mem_cons_iff, hc, false_and, false_or]

theorem mem_possibleSegments (cps : List Int) (pen : α) (seg : α × Int × Int) :
    seg ∈ possibleSegments cps pen ↔
      ∃ s ∈ cps, ∃ e ∈ cps, s < e ∧ seg = (pen, s, e) := by
  rw [possibleSegments]
  have outer : ∀ (l : List Int) (init : List (α × Int × Int)),
      seg ∈ l.foldl (fun acc s =>
          cps.foldl (fun acc2 e => if s < e then sadd acc2 (pen, s, e) else acc2) acc) init ↔
        seg ∈ init ∨ ∃ s ∈ l, ∃ e ∈ cps, s < e ∧ seg = (pen, s, e) := by
    intro l
    induction l with
    | nil => simp
    | cons a l ih =>
      intro init
      rw [List.foldl_cons, ih, mem_possibleSegments_inner]
      simp only [List.exists_mem_cons_iff]
      aesop
  rw [outer cps []]
  simp

/-! ### The segment cost fold -/

theorem segCost_nil (ct : List (String × α)) (dc : α) (s e : Int) :
    segCost [] ct dc s e = 0 := rfl

theorem segCost_cons (t : Tag) (tags : List Tag) (ct : List (String × α)) (dc : α) (s e : Int) :
    segCost (t :: tags) ct dc s e =
      (if t.2.1 ≥ e ∨ t.2.2 ≤ s then 0 else tagWeight ct dc t.1 * ((e - s : Int) : α)) +
        segCost tags ct dc s e := by
  rw [segCost, segCost, List.filter_cons]
  by_cases h : t.2.1 ≥ e ∨ t.2.2 ≤ s
  · simp [h]
  · simp [h]

theorem weighSegment_eq (tags : List Tag) (ct : List (String × α)) (dc : α)
    (p : α) (s e : Int) :
    weighSegment tags ct dc (p, s, e) = (p + segCost tags ct dc s e, s, e) := by
  induction tags generalizing p with
  | nil => simp [weighSegment, segCost]
  | cons t tags ih =>
    have hstep : weighSegment (t :: tags) ct dc (p, s, e) =
        weighSegment tags ct dc
          (if t.2.1 ≥ e ∨ t.2.2 ≤ s then (p, s, e)
           else (p + tagWeight ct dc t.1 * ((e - s : Int) : α), s, e)) := by
      rw [weighSegment, weighSegment, List.foldl_cons]
    by_cases h : t.2.1 ≥ e ∨ t.2.2 ≤ s
    · rw [hstep, if_pos h, ih, segCost_cons, if_pos h, zero_add]
    · rw [hstep, if_neg h, ih, segCost_cons, if_neg h, add_assoc]

theorem mem_foldl_sadd {κ β' : Type} [DecidableEq κ] (f : β' → κ) (l : List β')
    (init : List κ) (x : κ) :
    x ∈ l.foldl (fun acc b => sadd acc (f b)) init ↔ x ∈ init ∨ ∃ b ∈ l, f b = x := by
  induction l generalizing init with
  | nil => simp
  | cons b l ih =>
    rw [List.foldl_cons, ih]
    simp only [mem_sadd, List.exists_mem_cons_iff]
    tauto

theorem mem_weightedSegments (tags : List Tag) (ct : List (String × α)) (dc : α)
    (possible : List (α × Int × Int)) (seg : α × Int × Int) :
    seg ∈ weightedSegments tags ct dc possible ↔
      ∃ s0 ∈ possible, weighSegment tags ct dc s0 = seg := by
  rw [weightedSegments]
  simpa using mem_foldl_sadd (weighSegment tags ct dc) possible [] seg

/-- The weighted-segments set, characterised: exactly one triple
`(penalty + segCost s e, s, e)` for every ordered pair of cutting points. -/
theorem mem_ws_iff (tags : List Tag) (noFrames : Int) (ct : List (String × α)) (dc pen : α)
    (seg : α × Int × Int) :
    seg ∈ weightedSegments tags ct dc (possibleSegments (cuttingPoints tags noFrames) pen) ↔
      ∃ s e, s ∈ cuttingPoints tags noFrames ∧ e ∈ cuttingPoints tags noFrames ∧ s < e ∧
        seg = (pen + segCost tags ct dc s e, s, e) := by
  rw [mem_weightedSegments]
  constructor
  · rintro ⟨s0, hs0, rfl⟩
    obtain ⟨s, hs, e, he, hlt, rfl⟩ := (mem_possibleSegments _ pen s0).mp hs0
    exact ⟨s, e, hs, he, hlt, (weighSegment_eq tags ct dc pen s e)⟩
  · rintro ⟨s, e, hs, he, hlt, rfl⟩
    exact ⟨(pen, s, e), (mem_possibleSegments _ pen _).mpr ⟨s, hs, e, he, hlt, rfl⟩,
      weighSegment_eq tags ct dc pen s e⟩

end DLS

namespace DLS

variable {α : Type} [LinearOrderedCommRing α]

/-! ### The graph construction -/

theorem dget_graphKeys_fold (l : List (α × Int × Int)) (init : List (Int × List (Int × α)))
    (u : Int) :
    dget (l.foldl (fun g seg => dinsert g seg.2.1 []) init) u =
      if ∃ seg ∈ l, seg.2.1 = u then some [] else dget init u := by
  induction l generalizing init with
  | nil => simp
  | cons sg l ih =>
    rw [List.foldl_cons, ih]
    by_cases hl : ∃ seg ∈ l, seg.2.1 = u
    · rw [if_pos hl, if_pos]
      obtain ⟨seg, h1, h2⟩ := hl
      exact ⟨seg, List.mem_cons_of_mem _ h1, h2⟩
    · rw [if_neg hl]
      by_cases hu : sg.2.1 = u
      · rw [if_pos ⟨sg, List.mem_cons_self _ _, hu⟩, hu, dget_dinsert_self]
      · rw [dget_dinsert_ne _ _ _ _ hu, if_neg]
        rintro ⟨seg, hseg, heq⟩
        rcases List.mem_cons.mp hseg with rfl | hm
        · exact hu heq
        · exact hl ⟨seg, hm, heq⟩

theorem dget_graphKeys (ws : List (α × Int × Int)) (u : Int) :
    dget (graphKeys ws) u = if ∃ seg ∈ ws, seg.2.1 = u then some [] else none := by
  rw [graphKeys, dget_graphKeys_fold]
  rfl

theorem edgeWeight_graphKeys (ws : List (α × Int × Int)) (u v : Int) :
    edgeWeight (graphKeys ws) u v = none := by
  rw [edgeWeight, dget_graphKeys]
  by_cases h : ∃ seg ∈ ws, seg.2.1 = u
  · rw [if_pos h]; rfl
  · rw [if_neg h]; rfl

/-- One step of the step-4 update loop, characterised on edge lookups. -/
theorem buildStep_edgeWeight (g : List (Int × List (Int × α))) (c1 : α) (s1 e1 u v : Int) :
    edgeWeight (match dget g s1 with
        | some adj => dinsert g s1 (dinsert adj e1 c1)
        | none => g) u v =
      if u = s1 ∧ v = e1 ∧ (dget g s1).isSome then some c1
      else edgeWeight g u v := by
  cases hadj : dget g s1 with
  | none => rw [if_neg (by simp [hadj])]
  | some adj =>
    by_cases hu : u = s1
    · subst hu
      by_cases hv : v = e1
      · subst hv
        rw [if_pos ⟨rfl, rfl, by simp [hadj]⟩]
        simp [edgeWeight, dget_dinsert_self]
      · rw [if_neg (by simp [hv])]
        simp [edgeWeight, dget_dinsert_self, hadj,
          dget_dinsert_ne _ _ _ _ (fun hc : e1 = v => hv hc.symm)]
    · rw [if_neg (by simp [hu])]
      rw [edgeWeight, edgeWeight, dget_dinsert_ne _ _ _ _ (fun hc : s1 = u => hu hc.symm)]

theorem buildStep_key (g : List (Int × List (Int × α))) (c1 : α) (s1 e1 k : Int)
    (h : (dget g k).isSome) :
    (dget (match dget g s1 with
        | some adj => dinsert g s1 (dinsert adj e1 c1)
        | none => g) k).isSome := by
  cases hadj : dget g s1 with
  | none => exact h
  | some adj => exact (dget_dinsert_isSome _ _ _ _).mpr (Or.inl h)

/-- Provenance of an edge in the step-4 fold: it is either one of the
processed segments or was present in the initial adjacency structure. -/
theorem buildGraph_fold_lookup (l : List (α × Int × Int)) (g : List (Int × List (Int × α)))
    (u v : Int) (c : α)
    (h : edgeWeight (l.foldl (fun g seg =>
        match dget g seg.2.1 with
        | some adj => dinsert g seg.2.1 (dinsert adj seg.2.2 seg.1)
        | none => g) g) u v = some c) :
    (c, u, v) ∈ l ∨ edgeWeight g u v = some c := by
  induction l generalizing g with
  | nil => exact Or.inr h
  | cons sg l ih =>
    obtain ⟨c1, s1, e1⟩ := sg
    rw [List.foldl_cons] at h
    rcases ih _ h with hmem | hg
    · exact Or.inl (List.mem_cons_of_mem _ hmem)
    · dsimp only at hg
      rw [buildStep_edgeWeight] at hg
      by_cases hcond : u = s1 ∧ v = e1 ∧ (dget g s1).isSome
      · rw [if_pos hcond] at hg
        obtain ⟨rfl, rfl, _⟩ := hcond
        obtain rfl : c1 = c := Option.some_inj.mp hg
        exact Or.inl (List.mem_cons_self _ _)
      · rw [if_neg hcond] at hg
        exact Or.inr hg

theorem buildGraph_fold_persist (l : List (α × Int × Int)) (g : List (Int × List (Int × α)))
    (u v : Int) (h : (edgeWeight g u v).isSome) :
    (edgeWeight (l.foldl (fun g seg =>
        match dget g seg.2.1 with
        | some adj => dinsert g seg.2.1 (dinsert adj seg.2.2 seg.1)
        | none => g) g) u v).isSome := by
  induction l generalizing g with
  | nil => exact h
  | cons sg l ih =>
    obtain ⟨c1, s1, e1⟩ := sg
    rw [List.foldl_cons]
    apply ih
    dsimp only
    rw [buildStep_edgeWeight]
    by_cases hcond : u = s1 ∧ v = e1 ∧ (dget g s1).isSome
    · rw [if_pos hcond]; rfl
    · rw [if_neg hcond]; exact h

theorem buildGraph_fold_mem (l : List (α × Int × Int)) (g : List (Int × List (Int × α)))
    (c : α) (u v : Int) :
    (∀ seg ∈ l, (dget g seg.2.1).isSome) → (c, u, v) ∈ l →
    (edgeWeight (l.foldl (fun g seg =>
        match dget g seg.2.1 with
        | some adj => dinsert g seg.2.1 (dinsert adj seg.2.2 seg.1)
        | none => g) g) u v).isSome := by
  induction l generalizing g with
  | nil => intro _ h; simp at h
  | cons sg l ih =>
    intro hkeys h
    rw [List.foldl_cons]
    rcases List.mem_cons.mp h with heq | hmem
    · subst heq
      apply buildGraph_fold_persist
      dsimp only
      rw [buildStep_edgeWeight, if_pos ⟨rfl, rfl, hkeys _ (List.mem_cons_self _ _)⟩]
      rfl
    · obtain ⟨c1, s1, e1⟩ := sg
      apply ih
      · intro seg hseg
        exact buildStep_key g c1 s1 e1 seg.2.1 (hkeys seg (List.mem_cons_of_mem _ hseg))
      · exact hmem

end DLS

namespace DLS

variable {α : Type} [LinearOrderedCommRing α]

/-- The central characterisation of the segment graph: there is an edge
`u → v` exactly between cutting points with `u < v`, and its weight is the
cut penalty plus the skip cost of `[u, v)`. -/
theorem edgeWeight_partitionGraph (tags : List Tag) (noFrames : Int)
    (ct : List (String × α)) (dc pen : α) (u v : Int) :
    edgeWeight (partitionGraph tags noFrames ct dc pen) u v =
      if u ∈ cuttingPoints tags noFrames ∧ v ∈ cuttingPoints tags noFrames ∧ u < v
      then some (pen + segCost tags ct dc u v) else none := by
  have hkeys : ∀ seg ∈ weightedSegments tags ct dc
      (possibleSegments (cuttingPoints tags noFrames) pen),
      (dget (graphKeys (weightedSegments tags ct dc
        (possibleSegments (cuttingPoints tags noFrames) pen))) seg.2.1).isSome := by
    intro seg hseg
    rw [dget_graphKeys, if_pos ⟨seg, hseg, rfl⟩]
    rfl
  rw [partitionGraph, buildGraph]
  by_cases hcond : u ∈ cuttingPoints tags noFrames ∧ v ∈ cuttingPoints tags noFrames ∧ u < v
  · obtain ⟨hu, hv, hlt⟩ := hcond
    have hmem : ((pen + segCost tags ct dc u v : α), u, v) ∈ weightedSegments tags ct dc
        (possibleSegments (cuttingPoints tags noFrames) pen) :=
      (mem_ws_iff tags noFrames ct dc pen _).mpr ⟨u, v, hu, hv, hlt, rfl⟩
    have hsome := buildGraph_fold_mem _ _ _ u v hkeys hmem
    obtain ⟨c, hc⟩ := Option.isSome_iff_exists.mp hsome
    rcases buildGraph_fold_lookup _ _ u v c hc with hmem2 | hkey
    · obtain ⟨s, e, _, _, _, heq⟩ := (mem_ws_iff tags noFrames ct dc pen _).mp hmem2
      rw [Prod.mk.injEq, Prod.mk.injEq] at heq
      obtain ⟨hceq, hueq, hveq⟩ := heq
      rw [if_pos ⟨hu, hv, hlt⟩, hc, hceq, ← hueq, ← hveq]
    · rw [edgeWeight_graphKeys] at hkey
      exact absurd hkey (by simp)
  · rw [if_neg hcond]
    cases hnow : edgeWeight (List.foldl _ (graphKeys _) _) u v with
    | none => rfl
    | some c =>
      rcases buildGraph_fold_lookup _ _ u v c hnow with hmem2 | hkey
      · obtain ⟨s, e, hs, he, hlt, heq⟩ := (mem_ws_iff tags noFrames ct dc pen _).mp hmem2
        rw [Prod.mk.injEq, Prod.mk.injEq] at heq
        obtain ⟨hceq, hueq, hveq⟩ := heq
        exact absurd ⟨hueq ▸ hs, hveq ▸ he, hueq ▸ hveq ▸ hlt⟩ hcond
      · rw [edgeWeight_graphKeys] at hkey
        exact absurd hkey (by simp)

end DLS

namespace DLS

variable {α : Type} [LinearOrderedCommRing α]

/-! ### The vertex set collected by `dijkstra` -/

theorem mem_dinsert_pair {κ β : Type} [DecidableEq κ] {l : List (κ × β)} {k : κ} {v : β}
    {ent : κ × β} (h : ent ∈ dinsert l k v) : ent ∈ l ∨ ent = (k, v) := by
  induction l with
  | nil => simpa [dinsert] using h
  | cons kv rest ih =>
    rw [dinsert] at h
    split at h
    · rcases List.mem_cons.mp h with rfl | hm
      · exact Or.inr rfl
      · exact Or.inl (List.mem_cons_of_mem _ hm)
    · rcases List.mem_cons.mp h with rfl | hm
      · exact Or.inl (List.mem_cons_self _ _)
      · rcases ih hm with hl | he
        · exact Or.inl (List.mem_cons_of_mem _ hl)
        · exact Or.inr he

theorem graphKeys_val_nil (ws : List (α × Int × Int)) :
    ∀ ent ∈ graphKeys ws, ent.2 = [] := by
  rw [graphKeys]
  have fold : ∀ (l : List (α × Int × Int)) (init : List (Int × List (Int × α))),
      (∀ ent ∈ init, ent.2 = []) →
      ∀ ent ∈ l.foldl (fun g seg => dinsert g seg.2.1 []) init, ent.2 = [] := by
    intro l
    induction l with
    | nil => exact fun init h => h
    | cons sg l ih =>
      intro init hinit
      rw [List.foldl_cons]
      apply ih
      intro ent hent
      rcases mem_dinsert_pair hent with hm | rfl
      · exact hinit ent hm
      · rfl
  exact fold ws [] (by simp)

/-- Keys of the finished graph are exactly the keys laid down by the
dict comprehension (the update loop only rewrites existing keys). -/
theorem buildGraph_fold_keys (l : List (α × Int × Int)) (g : List (Int × List (Int × α)))
    (k : Int) :
    (dget (l.foldl (fun g seg =>
        match dget g seg.2.1 with
        | some adj => dinsert g seg.2.1 (dinsert adj seg.2.2 seg.1)
        | none => g) g) k).isSome ↔ (dget g k).isSome := by
  induction l generalizing g with
  | nil => exact Iff.rfl
  | cons sg l ih =>
    obtain ⟨c1, s1, e1⟩ := sg
    rw [List.foldl_cons, ih]
    dsimp only
    cases hadj : dget g s1 with
    | none => exact Iff.rfl
    | some adj =>
      rw [dget_dinsert_isSome]
      constructor
      · rintro (h | rfl)
        · exact h
        · simp [hadj]
      · exact Or.inl

/-- Provenance of adjacency entries: every `(target, cost)` pair stored in
the finished graph comes from some weighted segment's end point. -/
theorem buildGraph_fold_vals (l : List (α × Int × Int)) (g : List (Int × List (Int × α))) :
    ∀ ent ∈ l.foldl (fun g seg =>
        match dget g seg.2.1 with
        | some adj => dinsert g seg.2.1 (dinsert adj seg.2.2 seg.1)
        | none => g) g,
      ∀ el ∈ ent.2, (∃ ent0 ∈ g, el ∈ ent0.2) ∨ ∃ seg ∈ l, el.1 = seg.2.2 := by
  induction l generalizing g with
  | nil => exact fun ent hent el hel => Or.inl ⟨ent, hent, hel⟩
  | cons sg l ih =>
    intro ent hent el hel
    rw [List.foldl_cons] at hent
    rcases ih _ ent hent el hel with ⟨ent0, hent0, hel0⟩ | ⟨seg, hseg, heq⟩
    · obtain ⟨c1, s1, e1⟩ := sg
      dsimp only at hent0
      revert hent0
      cases hadj : dget g s1 with
      | none => exact fun hent0 => Or.inl ⟨ent0, hent0, hel0⟩
      | some adj =>
        intro hent0
        rcases mem_dinsert_pair hent0 with hm | rfl
        · exact Or.inl ⟨ent0, hm, hel0⟩
        · rcases mem_dinsert_pair hel0 with hm2 | rfl
          · exact Or.inl ⟨(s1, adj), dget_mem hadj, hm2⟩
          · exact Or.inr ⟨(c1, s1, e1), List.mem_cons_self _ _, rfl⟩
    · exact Or.inr ⟨seg, List.mem_cons_of_mem _ hseg, heq⟩

theorem mem_initUnvisited_inner (adj : List (Int × α)) (init : List Int) (x : Int) :
    x ∈ adj.foldl (fun uv2 e => sadd uv2 e.1) init ↔ x ∈ init ∨ ∃ e ∈ adj, x = e.1 := by
  have h := mem_foldl_sadd Prod.fst adj init x
  rw [h]
  simp only [eq_comm]

theorem mem_initUnvisited (g : List (Int × List (Int × α))) (x : Int) :
    x ∈ initUnvisited g ↔ ∃ ent ∈ g, x = ent.1 ∨ ∃ e ∈ ent.2, x = e.1 := by
  rw [initUnvisited]
  have fold : ∀ (l : List (Int × List (Int × α))) (init : List Int),
      x ∈ l.foldl (fun uv ent => ent.2.foldl (fun uv2 e => sadd uv2 e.1) (sadd uv ent.1)) init ↔
        x ∈ init ∨ ∃ ent ∈ l, x = ent.1 ∨ ∃ e ∈ ent.2, x = e.1 := by
    intro l
    induction l with
    | nil => simp
    | cons ent l ih =>
      intro init
      rw [List.foldl_cons, ih, mem_initUnvisited_inner]
      simp only [mem_sadd, List.exists_mem_cons_iff]
      aesop
  simpa using fold g []

theorem initUnvisited_nodup (g : List (Int × List (Int × α))) : (initUnvisited g).Nodup := by
  rw [initUnvisited]
  have inner : ∀ (adj : List (Int × α)) (init : List Int), init.Nodup →
      (adj.foldl (fun uv2 e => sadd uv2 e.1) init).Nodup := by
    intro adj
    induction adj with
    | nil => exact fun init h => h
    | cons e adj ih => exact fun init h => ih _ (sadd_nodup h _)
  have fold : ∀ (l : List (Int × List (Int × α))) (init : List Int), init.Nodup →
      (l.foldl (fun uv ent => ent.2.foldl (fun uv2 e => sadd uv2 e.1) (sadd uv ent.1)) init).Nodup := by
    intro l
    induction l with
    | nil => exact fun init h => h
    | cons ent l ih => exact fun init h => ih _ (inner _ _ (sadd_nodup h _))
  exact fold g [] List.nodup_nil

/-- The vertex set of the partition graph: every endpoint of an ordered
pair of cutting points. -/
theorem mem_initUnvisited_partitionGraph (tags : List Tag) (noFrames : Int)
    (ct : List (String × α)) (dc pen : α) (x : Int) :
    x ∈ initUnvisited (partitionGraph tags noFrames ct dc pen) ↔
      ∃ s e, s ∈ cuttingPoints tags noFrames ∧ e ∈ cuttingPoints tags noFrames ∧ s < e ∧
        (x = s ∨ x = e) := by
  rw [mem_initUnvisited]
  constructor
  · rintro ⟨ent, hent, hx | ⟨el, hel, hx⟩⟩
    · -- x is a key of the finished graph, hence the start of some weighted segment
      have hkey : (dget (partitionGraph tags noFrames ct dc pen) ent.1).isSome := by
        cases h : dget (partitionGraph tags noFrames ct dc pen) ent.1 with
        | some adjv => rfl
        | none =>
          rw [dget_none_iff] at h
          exact absurd (List.mem_map_of_mem Prod.fst hent) h
      rw [partitionGraph, buildGraph, buildGraph_fold_keys, dget_graphKeys] at hkey
      by_cases hext : ∃ seg ∈ weightedSegments tags ct dc
          (possibleSegments (cuttingPoints tags noFrames) pen), seg.2.1 = ent.1
      · obtain ⟨seg, hseg, heq⟩ := hext
        obtain ⟨s, e, hs, he, hlt, heq2⟩ := (mem_ws_iff tags noFrames ct dc pen _).mp hseg
        refine ⟨s, e, hs, he, hlt, Or.inl ?_⟩
        rw [hx, ← heq, heq2]
      · rw [if_neg hext] at hkey
        exact absurd hkey (by simp)
    · -- x is a stored target, hence the end of some weighted segment
      have := buildGraph_fold_vals _ (graphKeys (weightedSegments tags ct dc
        (possibleSegments (cuttingPoints tags noFrames) pen))) ent
        (by rw [partitionGraph, buildGraph] at hent; exact hent) el hel
      rcases this with ⟨ent0, hent0, hel0⟩ | ⟨seg, hseg, heq⟩
      · rw [graphKeys_val_nil _ ent0 hent0] at hel0
        simp at hel0
      · obtain ⟨s, e, hs, he, hlt, heq2⟩ := (mem_ws_iff tags noFrames ct dc pen _).mp hseg
        refine ⟨s, e, hs, he, hlt, Or.inr ?_⟩
        rw [hx, heq, heq2]
  · rintro ⟨s, e, hs, he, hlt, hx⟩
    have hedge : edgeWeight (partitionGraph tags noFrames ct dc pen) s e =
        some (pen + segCost tags ct dc s e) := by
      rw [edgeWeight_partitionGraph, if_pos ⟨hs, he, hlt⟩]
    rw [edgeWeight] at hedge
    cases hadj : dget (partitionGraph tags noFrames ct dc pen) s with
    | none => rw [hadj] at hedge; simp at hedge
    | some adj =>
      rw [hadj] at hedge
      simp only [Option.some_bind] at hedge
      rcases hx with rfl | rfl
      · exact ⟨(x, adj), dget_mem hadj, Or.inl rfl⟩
      · exact ⟨(s, adj), dget_mem hadj, Or.inr ⟨(x, pen + segCost tags ct dc s x),
          dget_mem hedge, rfl⟩⟩

end DLS

namespace DLS

variable {α : Type} [LinearOrderedCommRing α]

/-! ### Permutation invariance of the cost model -/

theorem cuttingPoints_perm_mem {l1 l2 : List Tag} (h : l1.Perm l2) (noFrames x : Int) :
    x ∈ cuttingPoints l1 noFrames ↔ x ∈ cuttingPoints l2 noFrames := by
  rw [mem_cuttingPoints, mem_cuttingPoints]
  refine or_congr Iff.rfl (or_congr Iff.rfl ?_)
  constructor
  · rintro ⟨t, ht, hx⟩; exact ⟨t, h.mem_iff.mp ht, hx⟩
  · rintro ⟨t, ht, hx⟩; exact ⟨t, h.mem_iff.mpr ht, hx⟩

theorem segCost_perm {l1 l2 : List Tag} (h : l1.Perm l2) (ct : List (String × α))
    (dc : α) (s e : Int) : segCost l1 ct dc s e = segCost l2 ct dc s e := by
  rw [segCost, segCost]
  exact List.Perm.sum_eq (List.Perm.map _ (List.Perm.filter _ h))

theorem tagWeight_nonneg (ct : List (String × α)) (dc : α)
    (hw : ∀ lw ∈ ct, 0 ≤ lw.2) (hdc : 0 ≤ dc) (label : String) :
    0 ≤ tagWeight ct dc label := by
  rw [tagWeight]
  cases h : dget ct label with
  | none => exact hdc
  | some w => exact hw (label, w) (dget_mem h)

theorem segCost_nonneg (tags : List Tag) (ct : List (String × α)) (dc : α) (s e : Int)
    (hse : s ≤ e) (hw : ∀ lw ∈ ct, 0 ≤ lw.2) (hdc : 0 ≤ dc) :
    0 ≤ segCost (α := α) tags ct dc s e := by
  rw [segCost]
  apply List.sum_nonneg
  intro x hx
  obtain ⟨t, _, rfl⟩ := List.mem_map.mp hx
  apply mul_nonneg (tagWeight_nonneg ct dc hw hdc t.1)
  rw [Int.cast_nonneg]
  omega

/-! ### Claim theorems: the cost model and the graph -/

/-- Claim C2 (confirmed): for every candidate segment `[s, e)` with `s < e`,
the edge weight the code computes for it equals the penalty plus, for each
tag interval overlapping the segment (`¬(tag.start ≥ e ∨ tag.end ≤ s)`),
`weight(label) * (e - s)` — the full segment length — where `weight` is the
cost-table entry when present and the default cost otherwise.  A segment
with no overlapping tag contributes cost `0` (the sum over the empty filter),
so its edge weight is exactly the penalty. -/
theorem claim_C2_edge_weight (tags : List Tag) (noFrames : Int) (ct : List (String × α))
    (dc pen : α) (s e : Int) (hs : s ∈ cuttingPoints tags noFrames)
    (he : e ∈ cuttingPoints tags noFrames) (hlt : s < e) :
    edgeWeight (partitionGraph tags noFrames ct dc pen) s e =
      some (pen + ((tags.filter (fun t => ¬(t.2.1 ≥ e ∨ t.2.2 ≤ s))).map
        (fun t => tagWeight ct dc t.1 * ((e - s : Int) : α))).sum) := by
  rw [edgeWeight_partitionGraph, if_pos ⟨hs, he, hlt⟩]
  rfl

/-- Witness for C2 at a concrete input: segment `[0, 9)` of the graph for
the single tag `("dog", 5, 8)`. -/
theorem claim_C2_edge_weight_witness :
    (0 : Int) ∈ cuttingPoints [("dog", 5, 8)] 9 ∧
    (9 : Int) ∈ cuttingPoints [("dog", 5, 8)] 9 ∧ (0 : Int) < 9 ∧
    edgeWeight (partitionGraph [("dog", 5, 8)] 9 ([] : List (String × Int)) 1 2) 0 9 =
      some (2 + ((([("dog", 5, 8)] : List Tag).filter
        (fun t => ¬(t.2.1 ≥ 9 ∨ t.2.2 ≤ 0))).map
        (fun t => tagWeight ([] : List (String × Int)) 1 t.1 * ((9 - 0 : Int) : Int))).sum) :=
  ⟨by decide, by decide, by decide,
    claim_C2_edge_weight [("dog", 5, 8)] 9 [] 1 2 0 9 (by decide) (by decide) (by decide)⟩

/-- Claim C3 is false on the code: for the segment `[0, 9)` and the single
tag `("dog", 5, 8)` (default cost 1, penalty 2) the code computes edge
weight `2 + 1 * 9 = 11`, charging the full segment length, while the
claimed overlap-length formula gives `2 + 1 * (min 9 8 - max 0 5) = 5`. -/
theorem claim_C3_counterexample :
    edgeWeight (partitionGraph [("dog", 5, 8)] 9 ([] : List (String × Int)) 1 2) 0 9 =
        some 11 ∧
    (2 : Int) + overlapSegCost [("dog", 5, 8)] ([] : List (String × Int)) 1 0 9 = 5 ∧
    (11 : Int) ≠ 5 :=
  ⟨rfl, rfl, by decide⟩

/-- Claim C3 amended: the segment cost is accumulated once per tag instance
over all tags intersecting `[s, e)`, but each such instance contributes
`weight(label)` times the full segment length `e - s`, not the overlap
length `min(e, tag.end) - max(s, tag.start)`. -/
theorem claim_C3_amended (tags : List Tag) (noFrames : Int) (ct : List (String × α))
    (dc pen : α) (s e : Int) (hs : s ∈ cuttingPoints tags noFrames)
    (he : e ∈ cuttingPoints tags noFrames) (hlt : s < e) :
    edgeWeight (partitionGraph tags noFrames ct dc pen) s e =
      some (pen + segCost tags ct dc s e) := by
  rw [edgeWeight_partitionGraph, if_pos ⟨hs, he, hlt⟩]

/-- Witness for the amended C3, segment `[3, 9)` of the first test scenario
(the tag `("cat", 3, 9)` occurs twice conceptually disjoint — here simply a
concrete instantiation discharging the hypotheses). -/
theorem claim_C3_amended_witness :
    (3 : Int) ∈ cuttingPoints [("cat", 3, 9), ("dog", 5, 8), ("people", 0, 6)] 9 ∧
    (9 : Int) ∈ cuttingPoints [("cat", 3, 9), ("dog", 5, 8), ("people", 0, 6)] 9 ∧
    (3 : Int) < 9 ∧
    edgeWeight (partitionGraph [("cat", 3, 9), ("dog", 5, 8), ("people", 0, 6)] 9
        ([] : List (String × Int)) 1 3) 3 9 =
      some (3 + segCost [("cat", 3, 9), ("dog", 5, 8), ("people", 0, 6)]
        ([] : List (String × Int)) 1 3 9) :=
  ⟨by decide, by decide, by decide,
    claim_C3_amended [("cat", 3, 9), ("dog", 5, 8), ("people", 0, 6)] 9 [] 1 3 3 9
      (by decide) (by decide) (by decide)⟩

end DLS

namespace DLS

variable {α : Type} [LinearOrderedCommRing α]

/-- Claim C7 (confirmed): for well-formed input (positive frame count,
intervals within `[0, no_frames]`, non-negative weights and penalty) every
edge weight of the constructed graph is a non-negative ring value, the
vertex set collected by `dijkstra` contains `0` and `no_frames`, the single
edge `(0, no_frames)` is present, and hence the one-edge path
`[0, no_frames]` from `0` to `no_frames` exists. -/
theorem claim_C7_graph_invariants (tags : List Tag) (noFrames : Int)
    (ct : List (String × α)) (dc pen : α) (hnf : 0 < noFrames)
    (hb : ∀ t ∈ tags, 0 ≤ t.2.1 ∧ t.2.1 ≤ noFrames ∧ 0 ≤ t.2.2 ∧ t.2.2 ≤ noFrames)
    (hw : ∀ lw ∈ ct, 0 ≤ lw.2) (hdc : 0 ≤ dc) (hpen : 0 ≤ pen) :
    (∀ u v c, edgeWeight (partitionGraph tags noFrames ct dc pen) u v = some c → 0 ≤ c) ∧
    (0 : Int) ∈ initUnvisited (partitionGraph tags noFrames ct dc pen) ∧
    noFrames ∈ initUnvisited (partitionGraph tags noFrames ct dc pen) ∧
    (∃ c, edgeWeight (partitionGraph tags noFrames ct dc pen) 0 noFrames = some c) ∧
    IsPathFrom (partitionGraph tags noFrames ct dc pen) 0 noFrames [0, noFrames] := by
  have h0 := zero_mem_cuttingPoints tags noFrames
  have hT := noFrames_mem_cuttingPoints tags noFrames
  have hedge : edgeWeight (partitionGraph tags noFrames ct dc pen) 0 noFrames =
      some (pen + segCost tags ct dc 0 noFrames) := by
    rw [edgeWeight_partitionGraph, if_pos ⟨h0, hT, hnf⟩]
  refine ⟨?_, ?_, ?_, ⟨_, hedge⟩, ?_⟩
  · intro u v c hc
    rw [edgeWeight_partitionGraph] at hc
    by_cases hcond : u ∈ cuttingPoints tags noFrames ∧ v ∈ cuttingPoints tags noFrames ∧ u < v
    · rw [if_pos hcond] at hc
      obtain rfl := Option.some_inj.mp hc
      exact add_nonneg hpen (segCost_nonneg tags ct dc u v (le_of_lt hcond.2.2) hw hdc)
    · rw [if_neg hcond] at hc
      exact absurd hc (by simp)
  · exact (mem_initUnvisited_partitionGraph tags noFrames ct dc pen 0).mpr
      ⟨0, noFrames, h0, hT, hnf, Or.inl rfl⟩
  · exact (mem_initUnvisited_partitionGraph tags noFrames ct dc pen noFrames).mpr
      ⟨0, noFrames, h0, hT, hnf, Or.inr rfl⟩
  · refine ⟨rfl, rfl, ?_⟩
    simp only [List.chain'_cons, List.chain'_singleton, and_true]
    rw [hedge]
    rfl

/-- Witness for C7 on the first test scenario. -/
theorem claim_C7_graph_invariants_witness :
    ((0 : Int) < 9 ∧
      (∀ t ∈ ([("cat", 3, 9), ("dog", 5, 8), ("people", 0, 6)] : List Tag),
        0 ≤ t.2.1 ∧ t.2.1 ≤ 9 ∧ 0 ≤ t.2.2 ∧ t.2.2 ≤ 9) ∧
      (∀ lw ∈ ([] : List (String × Int)), 0 ≤ lw.2) ∧ (0 : Int) ≤ 1 ∧ (0 : Int) ≤ 3) ∧
    ((0 : Int) ∈ initUnvisited (partitionGraph
        [("cat", 3, 9), ("dog", 5, 8), ("people", 0, 6)] 9 ([] : List (String × Int)) 1 3) ∧
      (9 : Int) ∈ initUnvisited (partitionGraph
        [("cat", 3, 9), ("dog", 5, 8), ("people", 0, 6)] 9 ([] : List (String × Int)) 1 3)) := by
  have h := claim_C7_graph_invariants [("cat", 3, 9), ("dog", 5, 8), ("people", 0, 6)] 9
    ([] : List (String × Int)) 1 3 (by decide) (by decide) (by simp) (by decide) (by decide)
  exact ⟨⟨by decide, by decide, by simp, by decide, by decide⟩, h.2.1, h.2.2.1⟩

/-- Claim C9 is false on the code: the same two-element tag set presented in
its two iteration orders yields different outputs — a shortest-path tie
between the vertices `1` and `2` (both at distance 1, both one unit from the
target `4`) is broken by the iteration order of the unvisited set, which the
input order determines. -/
theorem claim_C9_counterexample :
    ([(("d" : String), (2 : Int), (1 : Int)), ("e", 1, 0)] : List Tag).Perm
      [("e", 1, 0), ("d", 2, 1)] ∧
    partition [("d", 2, 1), ("e", 1, 0)] 4 ([] : List (String × Int)) 1 1 =
      Except.ok [0, 2, 4] ∧
    partition [("e", 1, 0), ("d", 2, 1)] 4 ([] : List (String × Int)) 1 1 =
      Except.ok [0, 1, 4] ∧
    partition [("d", 2, 1), ("e", 1, 0)] 4 ([] : List (String × Int)) 1 1 ≠
      partition [("e", 1, 0), ("d", 2, 1)] 4 ([] : List (String × Int)) 1 1 := by
  refine ⟨List.Perm.swap _ _ _, rfl, rfl, ?_⟩
  intro h
  rw [show partition [("d", 2, 1), ("e", 1, 0)] 4 ([] : List (String × Int)) 1 1 =
      Except.ok [0, 2, 4] from rfl,
    show partition [("e", 1, 0), ("d", 2, 1)] 4 ([] : List (String × Int)) 1 1 =
      Except.ok [0, 1, 4] from rfl] at h
  simp at h

/-- Claim C9 amended: the cost model itself is order-independent — the edge
weights of the constructed graph are identical for any two presentation
orders of the tag set (the cost is a commutative sum) — but the returned
path is not: when several shortest paths tie, the hand-rolled selection
loop breaks the tie by iteration order (see the counterexample), so only
the graph, not the output list, is deterministic across iteration orders. -/
theorem claim_C9_amended (l1 l2 : List Tag) (h : l1.Perm l2) (noFrames : Int)
    (ct : List (String × α)) (dc pen : α) (u v : Int) :
    edgeWeight (partitionGraph l1 noFrames ct dc pen) u v =
      edgeWeight (partitionGraph l2 noFrames ct dc pen) u v := by
  rw [edgeWeight_partitionGraph, edgeWeight_partitionGraph]
  by_cases hcond : u ∈ cuttingPoints l1 noFrames ∧ v ∈ cuttingPoints l1 noFrames ∧ u < v
  · rw [if_pos hcond, if_pos ⟨(cuttingPoints_perm_mem h noFrames u).mp hcond.1,
      (cuttingPoints_perm_mem h noFrames v).mp hcond.2.1, hcond.2.2⟩, segCost_perm h]
  · rw [if_neg hcond, if_neg (fun hc => hcond ⟨(cuttingPoints_perm_mem h noFrames u).mpr hc.1,
      (cuttingPoints_perm_mem h noFrames v).mpr hc.2.1, hc.2.2⟩)]

/-- Witness for the amended C9: the counterexample's two orders give the
same edge weight on the tied edge `(0, 2)`. -/
theorem claim_C9_amended_witness :
    ([(("d" : String), (2 : Int), (1 : Int)), ("e", 1, 0)] : List Tag).Perm
      [("e", 1, 0), ("d", 2, 1)] ∧
    edgeWeight (partitionGraph [("d", 2, 1), ("e", 1, 0)] 4 ([] : List (String × Int)) 1 1) 0 2 =
      edgeWeight (partitionGraph [("e", 1, 0), ("d", 2, 1)] 4 ([] : List (String × Int)) 1 1) 0 2 :=
  ⟨List.Perm.swap _ _ _,
    claim_C9_amended [("d", 2, 1), ("e", 1, 0)] [("e", 1, 0), ("d", 2, 1)]
      (List.Perm.swap _ _ _) 4 [] 1 1 0 2⟩

/-- Claim C5 (confirmed): on the input of the repository's first test,
`tags = {(cat,3,9),(dog,5,8),(people,0,6)}, no_frames = 9, penalty = 3`,
`partition` returns `[0, 3, 9]` in every one of the six presentation orders
of the tag set: the set of interior cuts is exactly `{3}` and the final
boundary is `9`. -/
theorem claim_C5_scenario1 :
    partition [("cat", 3, 9), ("dog", 5, 8), ("people", 0, 6)] 9
        ([] : List (String × Int)) 1 3 = Except.ok [0, 3, 9] ∧
    partition [("cat", 3, 9), ("people", 0, 6), ("dog", 5, 8)] 9
        ([] : List (String × Int)) 1 3 = Except.ok [0, 3, 9] ∧
    partition [("dog", 5, 8), ("cat", 3, 9), ("people", 0, 6)] 9
        ([] : List (String × Int)) 1 3 = Except.ok [0, 3, 9] ∧
    partition [("dog", 5, 8), ("people", 0, 6), ("cat", 3, 9)] 9
        ([] : List (String × Int)) 1 3 = Except.ok [0, 3, 9] ∧
    partition [("people", 0, 6), ("cat", 3, 9), ("dog", 5, 8)] 9
        ([] : List (String × Int)) 1 3 = Except.ok [0, 3, 9] ∧
    partition [("people", 0, 6), ("dog", 5, 8), ("cat", 3, 9)] 9
        ([] : List (String × Int)) 1 3 = Except.ok [0, 3, 9] ∧
    ([0, 3, 9] : List Int).filter (fun x => decide (0 < x ∧ x < 9)) = [3] ∧
    ([0, 3, 9] : List Int).getLast? = some 9 :=
  ⟨rfl, rfl, rfl, rfl, rfl, rfl, by decide, rfl⟩

/-- Claim C1 is false on the code: `partition` performs no input validation.
A malformed input whose single interval has `start = 5 ≥ 3 = end` is
processed by the ordinary code path and returns a division; no
`InvalidInput` failure exists anywhere in the source (its only failure mode
is an uncaught `KeyError` from the shortest-path routine). -/
theorem claim_C1_counterexample :
    partition [("a", 5, 3)] 9 ([] : List (String × Int)) 1 2 = Except.ok [0, 5, 9] := rfl

/-- Claim C4 is false on the code: the returned sequence does not exclude
the implicit start `0` — it begins with it, as the repository's own test
asserts (`division == [0, 3, 9]`). -/
theorem claim_C4_counterexample :
    partition [("cat", 3, 9), ("dog", 5, 8), ("people", 0, 6)] 9
        ([] : List (String × Int)) 1 3 = Except.ok [0, 3, 9] ∧
    ([0, 3, 9] : List Int).head? = some 0 :=
  ⟨rfl, rfl⟩

end DLS


namespace DLS

variable {α : Type} [LinearOrderedCommRing α]

/-! ### The relaxation sweep -/

theorem except_ok_bind {ε β γ : Type} (a : β) (f : β → Except ε γ) :
    (Except.ok a : Except ε β) >>= f = f a := rfl

theorem relaxStep_eval (current : Int) (dist : List (Int × α)) (prev : List (Int × Int))
    (nb : Int × α) (dc : α) (hc : dget dist current = some dc) :
    relaxStep current (dist, prev) nb =
      match dget dist nb.1 with
      | none => Except.ok (dinsert dist nb.1 (dc + nb.2), dinsert prev nb.1 current)
      | some dn =>
          if dc + nb.2 < dn then
            Except.ok (dinsert dist nb.1 (dc + nb.2), dinsert prev nb.1 current)
          else Except.ok (dist, prev) := by
  rw [relaxStep]
  dsimp only
  rw [hc]
  rfl

/-- Full specification of one relaxation sweep from `current`.  Assuming
`dist[current] = dc` and that no adjacency target equals `current`, the
sweep succeeds; `dist[current]` is untouched; every target ends at most at
`dc + cost`; and every key is either untouched (together with its `prev`
entry) or set to `dc + cost` of one of the adjacent edges, jointly with
`prev := current`, and only ever strictly below its previous value. -/
theorem relax_spec (current : Int) (adj : List (Int × α)) (dist : List (Int × α))
    (prev : List (Int × Int)) (dc : α) (hc : dget dist current = some dc)
    (hne : ∀ nb ∈ adj, nb.1 ≠ current) :
    ∃ dist' prev', relax current adj dist prev = Except.ok (dist', prev') ∧
      dget dist' current = some dc ∧
      (∀ nb ∈ adj, ∃ dv, dget dist' nb.1 = some dv ∧ dv ≤ dc + nb.2) ∧
      (∀ v, (dget dist' v = dget dist v ∧ dget prev' v = dget prev v) ∨
        ∃ w, (v, w) ∈ adj ∧ dget dist' v = some (dc + w) ∧ dget prev' v = some current ∧
          ∀ dv, dget dist v = some dv → dc + w ≤ dv) := by
  induction adj generalizing dist prev with
  | nil =>
    refine ⟨dist, prev, rfl, hc, by simp, fun v => Or.inl ⟨rfl, rfl⟩⟩
  | cons nb adj ih =>
    have hnb1 : nb.1 ≠ current := hne nb (List.mem_cons_self _ _)
    obtain ⟨dist₁, prev₁, hstep, hp₁, hd₁, hmono₁⟩ :
        ∃ dist₁ prev₁, relax current (nb :: adj) dist prev = relax current adj dist₁ prev₁ ∧
          ((dget dist₁ nb.1 = some (dc + nb.2) ∧ dget prev₁ nb.1 = some current ∧
              (∀ dv, dget dist nb.1 = some dv → dc + nb.2 ≤ dv)) ∨
            (dist₁ = dist ∧ prev₁ = prev ∧
              ∃ dn, dget dist nb.1 = some dn ∧ dn ≤ dc + nb.2)) ∧
          dget dist₁ current = some dc ∧
          (∀ v, v ≠ nb.1 → dget dist₁ v = dget dist v ∧ dget prev₁ v = dget prev v) := by
      cases hnb : dget dist nb.1 with
      | none =>
        refine ⟨dinsert dist nb.1 (dc + nb.2), dinsert prev nb.1 current, ?_, ?_, ?_, ?_⟩
        · rw [relax, List.foldlM_cons, relaxStep_eval current dist prev nb dc hc, hnb]
          rfl
        · exact Or.inl ⟨dget_dinsert_self _ _ _, dget_dinsert_self _ _ _,
            fun dv hdv => absurd hdv (by simp)⟩
        · rw [dget_dinsert_ne _ _ _ _ hnb1, hc]
        · intro v hv
          rw [dget_dinsert_ne _ _ _ _ (fun hc2 => hv hc2.symm),
            dget_dinsert_ne _ _ _ _ (fun hc2 => hv hc2.symm)]
          exact ⟨rfl, rfl⟩
      | some dn =>
        by_cases hlt : dc + nb.2 < dn
        · refine ⟨dinsert dist nb.1 (dc + nb.2), dinsert prev nb.1 current, ?_, ?_, ?_, ?_⟩
          · rw [relax, List.foldlM_cons, relaxStep_eval current dist prev nb dc hc, hnb]
            dsimp only
            rw [if_pos hlt]
            rfl
          · refine Or.inl ⟨dget_dinsert_self _ _ _, dget_dinsert_self _ _ _, ?_⟩
            intro dv hdv
            obtain rfl := Option.some_inj.mp hdv
            exact le_of_lt hlt
          · rw [dget_dinsert_ne _ _ _ _ hnb1, hc]
          · intro v hv
            rw [dget_dinsert_ne _ _ _ _ (fun hc2 => hv hc2.symm),
              dget_dinsert_ne _ _ _ _ (fun hc2 => hv hc2.symm)]
            exact ⟨rfl, rfl⟩
        · refine ⟨dist, prev, ?_, Or.inr ⟨rfl, rfl, dn, rfl, le_of_not_lt hlt⟩, hc,
            fun v _ => ⟨rfl, rfl⟩⟩
          rw [relax, List.foldlM_cons, relaxStep_eval current dist prev nb dc hc, hnb]
          dsimp only
          rw [if_neg hlt]
          rfl
    obtain ⟨dist', prev', hok, hcur', htargets', hdict'⟩ :=
      ih dist₁ prev₁ hd₁ (fun x hx => hne x (List.mem_cons_of_mem _ hx))
    refine ⟨dist', prev', hstep ▸ hok, hcur', ?_, ?_⟩
    · intro x hx
      rcases List.mem_cons.mp hx with rfl | hmem
      · have hval : ∃ d₁, dget dist₁ x.1 = some d₁ ∧ d₁ ≤ dc + x.2 := by
          rcases hp₁ with ⟨h1, _, _⟩ | ⟨hde, _, dn, hdn, hle⟩
          · exact ⟨dc + x.2, h1, le_refl _⟩
          · exact ⟨dn, hde ▸ hdn, hle⟩
        obtain ⟨d₁, hd₁x, hle₁⟩ := hval
        rcases hdict' x.1 with ⟨heq, _⟩ | ⟨w, _, hset, _, hbound⟩
        · exact ⟨d₁, heq.trans hd₁x, hle₁⟩
        · exact ⟨dc + w, hset, le_trans (hbound d₁ hd₁x) hle₁⟩
      · exact htargets' x hmem
    · intro v
      by_cases hv : v = nb.1
      · subst hv
        rcases hdict' nb.1 with ⟨heqd, heqp⟩ | ⟨w, hw, hset, hprevs, hbound⟩
        · rcases hp₁ with ⟨h1, h2, h3⟩ | ⟨hde, hpe, _, _, _⟩
          · exact Or.inr ⟨nb.2, List.mem_cons_self _ _, heqd.trans h1, heqp.trans h2, h3⟩
          · exact Or.inl ⟨heqd.trans (by rw [hde]), heqp.trans (by rw [hpe])⟩
        · refine Or.inr ⟨w, List.mem_cons_of_mem _ hw, hset, hprevs, ?_⟩
          intro dv hdv
          rcases hp₁ with ⟨h1, _, h3⟩ | ⟨hde, _, _, _, _⟩
          · exact le_trans (hbound (dc + nb.2) h1) (h3 dv hdv)
          · refine hbound dv ?_
            rw [hde]
            exact hdv
      · rcases hdict' v with ⟨heqd, heqp⟩ | ⟨w, hw, hset, hprevs, hbound⟩
        · obtain ⟨hd2, hp2⟩ := hmono₁ v hv
          exact Or.inl ⟨heqd.trans hd2, heqp.trans hp2⟩
        · refine Or.inr ⟨w, List.mem_cons_of_mem _ hw, hset, hprevs, ?_⟩
          intro dv hdv
          refine hbound dv ?_
          rw [(hmono₁ v hv).1]
          exact hdv

end DLS

namespace DLS

variable {α : Type} [LinearOrderedCommRing α]

/-! ### The minimum-selection scan -/

theorem selStep_eval (dist : List (Int × α)) (st : Option α × Int) (v : Int) (dv : α)
    (hv : dget dist v = some dv) :
    selStep dist st v = (match st.1 with
      | none => Except.ok (some dv, v)
      | some md => if dv < md then Except.ok (some dv, v) else Except.ok st) := by
  rw [selStep]
  dsimp only
  rw [hv]
  rfl

theorem selectMin_fold_spec (dist : List (Int × α)) (l : List Int)
    (hall : ∀ v ∈ l, (dget dist v).isSome) (md : α) (cur : Int)
    (hcur : dget dist cur = some md) :
    ∃ m dm, l.foldlM (selStep dist) ((some md : Option α), cur) = Except.ok (some dm, m) ∧
      dget dist m = some dm ∧ dm ≤ md ∧ (m = cur ∨ m ∈ l) ∧
      ∀ v ∈ l, ∀ dv, dget dist v = some dv → dm ≤ dv := by
  induction l generalizing md cur with
  | nil => exact ⟨cur, md, rfl, hcur, le_refl _, Or.inl rfl, by simp⟩
  | cons v l ih =>
    obtain ⟨dv, hdv⟩ := Option.isSome_iff_exists.mp (hall v (List.mem_cons_self _ _))
    have hstep : List.foldlM (selStep dist) ((some md : Option α), cur) (v :: l) =
        List.foldlM (selStep dist)
          (if dv < md then ((some dv : Option α), v) else (some md, cur)) l := by
      rw [List.foldlM_cons, selStep_eval dist _ v dv hdv]
      dsimp only
      by_cases h : dv < md
      · rw [if_pos h, if_pos h]
        rfl
      · rw [if_neg h, if_neg h]
        rfl
    by_cases h : dv < md
    · rw [hstep, if_pos h]
      obtain ⟨m, dm, hok, hm, hle, hOr, hmin⟩ :=
        ih (fun x hx => hall x (List.mem_cons_of_mem _ hx)) dv v hdv
      refine ⟨m, dm, hok, hm, le_trans hle (le_of_lt h), ?_, ?_⟩
      · rcases hOr with rfl | hm2
        · exact Or.inr (List.mem_cons_self _ _)
        · exact Or.inr (List.mem_cons_of_mem _ hm2)
      · intro x hx dx hdx
        rcases List.mem_cons.mp hx with rfl | hx2
        · obtain rfl : dv = dx := by rw [hdv] at hdx; exact Option.some_inj.mp hdx
          exact hle
        · exact hmin x hx2 dx hdx
    · rw [hstep, if_neg h]
      obtain ⟨m, dm, hok, hm, hle, hOr, hmin⟩ :=
        ih (fun x hx => hall x (List.mem_cons_of_mem _ hx)) md cur hcur
      refine ⟨m, dm, hok, hm, hle, ?_, ?_⟩
      · rcases hOr with rfl | hm2
        · exact Or.inl rfl
        · exact Or.inr (List.mem_cons_of_mem _ hm2)
      · intro x hx dx hdx
        rcases List.mem_cons.mp hx with rfl | hx2
        · obtain rfl : dv = dx := by rw [hdv] at hdx; exact Option.some_inj.mp hdx
          exact le_trans hle (le_of_not_lt h)
        · exact hmin x hx2 dx hdx

/-- Specification of the minimum-selection scan when every unvisited vertex
has a distance: it succeeds, leaves `current` untouched on an empty list,
and otherwise returns an unvisited vertex of minimum distance. -/
theorem selectMin_spec (dist : List (Int × α)) (unvisited : List Int) (current : Int)
    (hall : ∀ v ∈ unvisited, (dget dist v).isSome) :
    ∃ m, selectMin dist unvisited current = Except.ok m ∧
      (unvisited = [] → m = current) ∧
      (unvisited ≠ [] → m ∈ unvisited ∧
        ∃ dm, dget dist m = some dm ∧ ∀ v ∈ unvisited, ∀ dv, dget dist v = some dv → dm ≤ dv) := by
  cases unvisited with
  | nil => exact ⟨current, rfl, fun _ => rfl, fun h => absurd rfl h⟩
  | cons v l =>
    obtain ⟨dv, hdv⟩ := Option.isSome_iff_exists.mp (hall v (List.mem_cons_self _ _))
    have hstep : selectMin dist (v :: l) current =
        (List.foldlM (selStep dist) ((some dv : Option α), v) l) >>=
          (fun st => Except.ok st.2) := by
      rw [selectMin, List.foldlM_cons, selStep_eval dist _ v dv hdv]
      rfl
    obtain ⟨m, dm, hok, hm, hle, hOr, hmin⟩ :=
      selectMin_fold_spec dist l (fun x hx => hall x (List.mem_cons_of_mem _ hx)) dv v hdv
    refine ⟨m, ?_, by simp, fun _ => ⟨?_, dm, hm, ?_⟩⟩
    · rw [hstep, hok]
      rfl
    · rcases hOr with rfl | hm2
      · exact List.mem_cons_self _ _
      · exact List.mem_cons_of_mem _ hm2
    · intro x hx dx hdx
      rcases List.mem_cons.mp hx with rfl | hx2
      · obtain rfl : dv = dx := by rw [hdv] at hdx; exact Option.some_inj.mp hdx
        exact hle
      · exact hmin x hx2 dx hdx

end DLS

namespace DLS

variable {α : Type} [LinearOrderedCommRing α]

/-! ### One iteration of the main loop -/

theorem except_error_bind {ε β γ : Type} (e : ε) (f : β → Except ε γ) :
    (Except.error e : Except ε β) >>= f = Except.error e := rfl

/-- Unfolding one successful iteration of the `while True` loop. -/
theorem dijkstraLoop_step (g : List (Int × List (Int × α))) (T : Int) (f : Nat)
    (unvisited : List Int) (dist : List (Int × α)) (prev : List (Int × Int)) (current : Int)
    (hcur : current ∈ unvisited)
    (adj : List (Int × α)) (hadj : dget g current = some adj)
    (dist' : List (Int × α)) (prev' : List (Int × Int))
    (hrelax : relax current adj dist prev = Except.ok (dist', prev'))
    (m : Int) (hsel : selectMin dist' (unvisited.erase current) current = Except.ok m) :
    dijkstraLoop g T (f + 1) unvisited dist prev current =
      if m = T then Except.ok (dist', prev', m)
      else dijkstraLoop g T f (unvisited.erase current) dist' prev' m := by
  rw [dijkstraLoop, if_pos hcur, hadj]
  dsimp only
  rw [except_ok_bind, hrelax, except_ok_bind]
  dsimp only
  rw [hsel, except_ok_bind]

end DLS

namespace DLS

variable {α : Type} [LinearOrderedCommRing α]

theorem mem_initUnvisited_of_edge (g : List (Int × List (Int × α))) (u v : Int) (c : α)
    (h : edgeWeight g u v = some c) :
    u ∈ initUnvisited g ∧ v ∈ initUnvisited g := by
  rw [edgeWeight] at h
  cases hadj : dget g u with
  | none => rw [hadj] at h; simp at h
  | some adj =>
    rw [hadj] at h
    simp only [Option.some_bind] at h
    constructor
    · exact (mem_initUnvisited g u).mpr ⟨(u, adj), dget_mem hadj, Or.inl rfl⟩
    · exact (mem_initUnvisited g v).mpr ⟨(u, adj), dget_mem hadj, Or.inr ⟨(v, c), dget_mem h, rfl⟩⟩

/-- The `while True` loop reaches `T` and returns normally whenever: every
non-target vertex is a graph key, adjacency entries are genuine edges, edges
go from smaller to larger vertices, and the entry state satisfies the loop
invariant (every unvisited vertex has a distance or an edge from `current`,
the target is still unvisited, and every distance entry has a `prev` chain
of genuine edges).  No sign condition on the weights is needed. -/
theorem dijkstraLoop_success (g : List (Int × List (Int × α))) (T : Int)
    (HK : ∀ u ∈ initUnvisited g, u ≠ T → (dget g u).isSome)
    (HADJ : ∀ u adj, dget g u = some adj → ∀ nb ∈ adj, edgeWeight g u nb.1 = some nb.2)
    (HE : ∀ u v c, edgeWeight g u v = some c → u < v) :
    ∀ (fuel : Nat) (unvisited : List Int) (dist : List (Int × α)) (prev : List (Int × Int))
      (current : Int),
    unvisited.length ≤ fuel → unvisited.Nodup →
    (∀ x ∈ unvisited, x ∈ initUnvisited g) →
    current ∈ unvisited → current ≠ T → T ∈ unvisited →
    (∀ v ∈ unvisited, v ≠ current →
      (dget dist v).isSome ∨ (edgeWeight g current v).isSome) →
    (dget dist current).isSome →
    (∀ v, (dget dist v).isSome → v ∈ initUnvisited g) →
    (∀ v dv, dget dist v = some dv → v ≠ 0 → ∃ p, dget prev v = some p ∧
      (∃ c, edgeWeight g p v = some c) ∧ (dget dist p).isSome) →
    ∃ distF prevF, dijkstraLoop g T fuel unvisited dist prev current =
        Except.ok (distF, prevF, T) ∧
      (dget distF T).isSome ∧
      (∀ v, (dget distF v).isSome → v ∈ initUnvisited g) ∧
      (∀ v dv, dget distF v = some dv → v ≠ 0 → ∃ p, dget prevF v = some p ∧
        (∃ c, edgeWeight g p v = some c) ∧ (dget distF p).isSome) := by
  intro fuel
  induction fuel with
  | zero =>
    intro unvisited dist prev current hlen _ _ hcur _ _ _ _ _ _
    rw [Nat.le_zero, List.length_eq_zero] at hlen
    subst hlen
    exact absurd hcur (List.not_mem_nil current)
  | succ f ih =>
    intro unvisited dist prev current hlen hnd hsub hcur hcT hTm hcov hdc hkeys hprev
    obtain ⟨adj, hadj⟩ := Option.isSome_iff_exists.mp (HK current (hsub _ hcur) hcT)
    obtain ⟨dc, hdc'⟩ := Option.isSome_iff_exists.mp hdc
    have hne : ∀ nb ∈ adj, nb.1 ≠ current := by
      intro nb hnb
      have := HE _ _ _ (HADJ current adj hadj nb hnb)
      omega
    obtain ⟨dist', prev', hrelax, hcur', htargets, hdict⟩ :=
      relax_spec current adj dist prev dc hdc' hne
    have hpers : ∀ v, (dget dist v).isSome → (dget dist' v).isSome := by
      intro v hv
      rcases hdict v with ⟨heq, _⟩ | ⟨w, _, hset, _, _⟩
      · rw [heq]; exact hv
      · rw [hset]; rfl
    have hall : ∀ v ∈ unvisited.erase current, (dget dist' v).isSome := by
      intro v hv
      have hvm : v ∈ unvisited := List.mem_of_mem_erase hv
      have hvne : v ≠ current := ((List.Nodup.mem_erase_iff hnd).mp hv).1
      rcases hcov v hvm hvne with hs | he
      · exact hpers v hs
      · obtain ⟨c, hc⟩ := Option.isSome_iff_exists.mp he
        rw [edgeWeight, hadj] at hc
        simp only [Option.some_bind] at hc
        obtain ⟨dv, hdv, _⟩ := htargets (v, c) (dget_mem hc)
        rw [hdv]; rfl
    obtain ⟨m, hsel, _, hne2⟩ := selectMin_spec dist' (unvisited.erase current) current hall
    have hTe : T ∈ unvisited.erase current :=
      (List.mem_erase_of_ne (Ne.symm hcT)).mpr hTm
    have hnonempty : unvisited.erase current ≠ [] := by
      intro h
      rw [h] at hTe
      exact absurd hTe (List.not_mem_nil T)
    obtain ⟨hm_mem, dm, hdm, hmin⟩ := hne2 hnonempty
    have hkeys' : ∀ v, (dget dist' v).isSome → v ∈ initUnvisited g := by
      intro v hv
      rcases hdict v with ⟨heq, _⟩ | ⟨w, hw, _, _, _⟩
      · exact hkeys v (heq ▸ hv)
      · exact (mem_initUnvisited_of_edge g current v w (HADJ current adj hadj (v, w) hw)).2
    have hprev' : ∀ v dv, dget dist' v = some dv → v ≠ 0 → ∃ p, dget prev' v = some p ∧
        (∃ c, edgeWeight g p v = some c) ∧ (dget dist' p).isSome := by
      intro v dv hv hv0
      rcases hdict v with ⟨heqd, heqp⟩ | ⟨w, hw, _, hprevset, _⟩
      · obtain ⟨p, hp, hpe, hpd⟩ := hprev v dv (heqd ▸ hv) hv0
        exact ⟨p, heqp ▸ hp, hpe, hpers p hpd⟩
      · exact ⟨current, hprevset, ⟨w, HADJ current adj hadj (v, w) hw⟩, hpers current hdc⟩
    rw [dijkstraLoop_step g T f unvisited dist prev current hcur adj hadj dist' prev'
      hrelax m hsel]
    by_cases hmT : m = T
    · rw [if_pos hmT]
      subst hmT
      exact ⟨dist', prev', rfl, hall m hTe, hkeys', hprev'⟩
    · rw [if_neg hmT]
      apply ih (unvisited.erase current) dist' prev' m
      · have := List.length_erase_of_mem hcur
        omega
      · exact hnd.erase _
      · intro x hx
        exact hsub x (List.mem_of_mem_erase hx)
      · exact hm_mem
      · exact hmT
      · exact hTe
      · intro v hv _
        exact Or.inl (hall v hv)
      · exact hall m hm_mem
      · exact hkeys'
      · exact hprev'

end DLS

namespace DLS

variable {α : Type} [LinearOrderedCommRing α]

/-! ### Path reconstruction -/

theorem filter_le_length_mono (l : List (Int × Int)) (p c : Int) (hpc : p ≤ c) :
    (l.filter (fun kv => kv.1 ≤ p)).length ≤ (l.filter (fun kv => kv.1 ≤ c)).length := by
  induction l with
  | nil => simp
  | cons kv rest ih =>
    rw [List.filter_cons, List.filter_cons]
    by_cases h1 : kv.1 ≤ p
    · rw [if_pos (by simpa using h1), if_pos (by simpa using le_trans h1 hpc)]
      simpa using ih
    · by_cases h2 : kv.1 ≤ c
      · rw [if_neg (by simpa using h1), if_pos (by simpa using h2)]
        simp only [List.length_cons]
        omega
      · rw [if_neg (by simpa using h1), if_neg (by simpa using h2)]
        exact ih

theorem filter_lt_length_of_mem (l : List (Int × Int)) (current p : Int)
    (hp : (current, p) ∈ l) (hlt : p < current) :
    (l.filter (fun kv => kv.1 ≤ p)).length < (l.filter (fun kv => kv.1 ≤ current)).length := by
  induction l with
  | nil => simp at hp
  | cons kv rest ih =>
    rw [List.filter_cons, List.filter_cons]
    rcases List.mem_cons.mp hp with heq | hmem
    · subst heq
      rw [if_neg (by simp; omega), if_pos (by simp)]
      have := filter_le_length_mono rest p current (le_of_lt hlt)
      simp only [List.length_cons]
      omega
    · by_cases h1 : kv.1 ≤ p
      · rw [if_pos (by simpa using h1), if_pos (by simpa using le_trans h1 (le_of_lt hlt))]
        simpa using ih hmem
      · by_cases h2 : kv.1 ≤ current
        · rw [if_neg (by simpa using h1), if_pos (by simpa using h2)]
          have := ih hmem
          simp only [List.length_cons]
          omega
        · rw [if_neg (by simpa using h1), if_neg (by simpa using h2)]
          exact ih hmem

/-- The reconstruction loop succeeds and produces a strictly increasing
path from `0` whenever every distance entry away from `0` has a `prev`
entry that is a genuine (increasing) edge with a recorded distance. -/
theorem reconLoop_spec (g : List (Int × List (Int × α))) (dist : List (Int × α))
    (prev : List (Int × Int))
    (HE : ∀ u v c, edgeWeight g u v = some c → u < v)
    (RS : ∀ v dv, dget dist v = some dv → v ≠ 0 → ∃ p, dget prev v = some p ∧
      (∃ c, edgeWeight g p v = some c) ∧ (dget dist p).isSome) :
    ∀ (fuel : Nat) (current : Int) (acc : List Int) (hd : Int),
    (prev.filter (fun kv => kv.1 ≤ current)).length < fuel →
    (dget dist current).isSome →
    acc.head? = some hd → acc.getLast? = some current →
    acc.Chain' (fun a b => b < a) →
    (∀ x ∈ acc, (dget dist x).isSome) →
    ∃ pth, reconLoop prev 0 fuel current acc = Except.ok pth ∧
      pth.head? = some 0 ∧ pth.getLast? = some hd ∧ pth.Chain' (· < ·) ∧
      ∀ x ∈ pth, (dget dist x).isSome := by
  intro fuel
  induction fuel with
  | zero =>
    intro current acc hd hfuel
    exact absurd hfuel (Nat.not_lt_zero _)
  | succ f ih =>
    intro current acc hd hfuel hcd hhd hlast hchain hmem
    rw [reconLoop]
    by_cases hc0 : current = 0
    · subst hc0
      rw [if_pos rfl]
      refine ⟨acc.reverse, rfl, ?_, ?_, ?_, ?_⟩
      · rw [List.head?_reverse]; exact hlast
      · rw [List.getLast?_reverse]; exact hhd
      · rw [List.chain'_reverse]; exact hchain
      · intro x hx; exact hmem x (List.mem_reverse.mp hx)
    · rw [if_neg hc0]
      obtain ⟨dv, hdv⟩ := Option.isSome_iff_exists.mp hcd
      obtain ⟨p, hp, ⟨c, hedge⟩, hpd⟩ := RS current dv hdv hc0
      rw [hp]
      have hplt : p < current := HE _ _ _ hedge
      have hnonempty : acc ≠ [] := by
        intro h
        rw [h] at hhd
        simp at hhd
      have h1 : (prev.filter (fun kv => kv.1 ≤ p)).length < f := by
        have := filter_lt_length_of_mem prev current p (dget_mem hp) hplt
        omega
      have h2 : (acc ++ [p]).head? = some hd := by
        rw [List.head?_append_of_ne_nil _ hnonempty]; exact hhd
      have h3 : (acc ++ [p]).getLast? = some p := List.getLast?_concat acc
      have h4 : (acc ++ [p]).Chain' (fun a b => b < a) := by
        refine hchain.append (List.chain'_singleton p) ?_
        intro x hx y hy
        rw [hlast] at hx
        obtain rfl := Option.mem_some_iff.mp hx
        simp only [List.head?_cons, Option.mem_some_iff] at hy
        subst hy
        exact hplt
      have h5 : ∀ x ∈ acc ++ [p], (dget dist x).isSome := by
        intro x hx
        rcases List.mem_append.mp hx with hx | hx
        · exact hmem x hx
        · obtain rfl := List.mem_singleton.mp hx
          exact hpd
      exact ih p (acc ++ [p]) hd h1 hpd h2 h3 h4 h5

end DLS

namespace DLS

variable {α : Type} [LinearOrderedCommRing α]

/-! ### Assembling `partition` for bounded inputs -/

theorem keys_nodup_mem_dget {κ β : Type} [DecidableEq κ] {l : List (κ × β)}
    (h : (l.map Prod.fst).Nodup) {k : κ} {v : β} (hm : (k, v) ∈ l) : dget l k = some v := by
  induction l with
  | nil => simp at hm
  | cons kv rest ih =>
    rw [dget]
    rcases List.mem_cons.mp hm with heq | hm2
    · rw [← heq]
      rw [if_pos rfl]
    · have hk : k ∈ rest.map Prod.fst := by
        have := List.mem_map_of_mem Prod.fst hm2
        simpa using this
      simp only [List.map_cons, List.nodup_cons] at h
      rw [if_neg (fun hc : kv.1 = k => h.1 (hc ▸ hk))]
      exact ih h.2 hm2

/-- Every adjacency list stored in the finished graph has distinct keys. -/
theorem buildGraph_vals_nodup (ws : List (α × Int × Int)) :
    ∀ ent ∈ buildGraph ws, (ent.2.map Prod.fst).Nodup := by
  rw [buildGraph]
  have fold : ∀ (l : List (α × Int × Int)) (g : List (Int × List (Int × α))),
      (∀ ent ∈ g, (ent.2.map Prod.fst).Nodup) →
      ∀ ent ∈ l.foldl (fun g seg =>
          match dget g seg.2.1 with
          | some adj => dinsert g seg.2.1 (dinsert adj seg.2.2 seg.1)
          | none => g) g, (ent.2.map Prod.fst).Nodup := by
    intro l
    induction l with
    | nil => exact fun g h => h
    | cons sg l ih =>
      intro g hg
      rw [List.foldl_cons]
      apply ih
      intro ent hent
      obtain ⟨c1, s1, e1⟩ := sg
      dsimp only at hent
      revert hent
      cases hadj : dget g s1 with
      | none => exact fun hent => hg ent hent
      | some adj =>
        intro hent
        rcases mem_dinsert_pair hent with hm | rfl
        · exact hg ent hm
        · exact keys_nodup_dinsert (hg (s1, adj) (dget_mem hadj)) _ _
  apply fold
  intro ent hent
  rw [graphKeys_val_nil _ ent hent]
  exact List.nodup_nil

/-- Adjacency entries of the partition graph are genuine edges. -/
theorem partitionGraph_adj (tags : List Tag) (noFrames : Int) (ct : List (String × α))
    (dc pen : α) :
    ∀ u adj, dget (partitionGraph tags noFrames ct dc pen) u = some adj →
      ∀ nb ∈ adj, edgeWeight (partitionGraph tags noFrames ct dc pen) u nb.1 = some nb.2 := by
  intro u adj hadj nb hnb
  have hnodup : (adj.map Prod.fst).Nodup := by
    have := buildGraph_vals_nodup (weightedSegments tags ct dc
      (possibleSegments (cuttingPoints tags noFrames) pen)) (u, adj)
    rw [partitionGraph] at hadj
    exact this (dget_mem hadj)
  rw [edgeWeight, hadj]
  simp only [Option.some_bind]
  obtain ⟨n1, n2⟩ := nb
  exact keys_nodup_mem_dget hnodup hnb

/-- For a positive frame count, the vertex set equals the cutting-point set. -/
theorem initUnvisited_eq_cuttingPoints (tags : List Tag) (noFrames : Int)
    (ct : List (String × α)) (dc pen : α) (hnf : 0 < noFrames)
    (hb : ∀ t ∈ tags, 0 ≤ t.2.1 ∧ t.2.1 ≤ noFrames ∧ 0 ≤ t.2.2 ∧ t.2.2 ≤ noFrames) (x : Int) :
    x ∈ initUnvisited (partitionGraph tags noFrames ct dc pen) ↔
      x ∈ cuttingPoints tags noFrames := by
  rw [mem_initUnvisited_partitionGraph]
  constructor
  · rintro ⟨s, e, hs, he, _, rfl | rfl⟩
    · exact hs
    · exact he
  · intro hx
    have hxb : 0 ≤ x ∧ x ≤ noFrames := by
      rcases mem_cuttingPoints.mp hx with rfl | rfl | ⟨t, ht, rfl | rfl⟩
      · omega
      · omega
      · have := hb t ht; omega
      · have := hb t ht; omega
    by_cases hxT : x = noFrames
    · exact ⟨0, noFrames, zero_mem_cuttingPoints tags noFrames,
        noFrames_mem_cuttingPoints tags noFrames, hnf, Or.inr (by rw [hxT])⟩
    · exact ⟨x, noFrames, hx, noFrames_mem_cuttingPoints tags noFrames,
        by omega, Or.inl rfl⟩

/-- For every input with a positive frame count whose tag endpoints lie
within `[0, no_frames]` — including malformed intervals with
`start ≥ end`, and arbitrary (even negative) weights and penalty —
`partition` returns a division list that starts at `0`, is strictly
increasing, ends at `no_frames`, and consists of cutting points. -/
theorem partition_success (tags : List Tag) (noFrames : Int) (ct : List (String × α))
    (dc pen : α) (hnf : 0 < noFrames)
    (hb : ∀ t ∈ tags, 0 ≤ t.2.1 ∧ t.2.1 ≤ noFrames ∧ 0 ≤ t.2.2 ∧ t.2.2 ≤ noFrames) :
    ∃ pth, partition tags noFrames ct dc pen = Except.ok pth ∧
      pth.head? = some 0 ∧ pth.getLast? = some noFrames ∧ pth.Chain' (· < ·) ∧
      ∀ x ∈ pth, x ∈ cuttingPoints tags noFrames := by
  have hVcps := initUnvisited_eq_cuttingPoints tags noFrames ct dc pen hnf hb
  have hcpsb : ∀ x ∈ cuttingPoints tags noFrames, 0 ≤ x ∧ x ≤ noFrames := by
    intro x hx
    rcases mem_cuttingPoints.mp hx with rfl | rfl | ⟨t, ht, rfl | rfl⟩
    · omega
    · omega
    · have := hb t ht; omega
    · have := hb t ht; omega
  have HE : ∀ u v c, edgeWeight (partitionGraph tags noFrames ct dc pen) u v = some c →
      u < v := by
    intro u v c hc
    rw [edgeWeight_partitionGraph] at hc
    by_cases hcond : u ∈ cuttingPoints tags noFrames ∧ v ∈ cuttingPoints tags noFrames ∧ u < v
    · exact hcond.2.2
    · rw [if_neg hcond] at hc
      exact absurd hc (by simp)
  have HK : ∀ u ∈ initUnvisited (partitionGraph tags noFrames ct dc pen), u ≠ noFrames →
      (dget (partitionGraph tags noFrames ct dc pen) u).isSome := by
    intro u hu huT
    have hucps := (hVcps u).mp hu
    have hub := hcpsb u hucps
    have hedge : edgeWeight (partitionGraph tags noFrames ct dc pen) u noFrames =
        some (pen + segCost tags ct dc u noFrames) := by
      rw [edgeWeight_partitionGraph,
        if_pos ⟨hucps, noFrames_mem_cuttingPoints tags noFrames, by omega⟩]
    rw [edgeWeight] at hedge
    cases hadj : dget (partitionGraph tags noFrames ct dc pen) u with
    | none => rw [hadj] at hedge; simp at hedge
    | some adj => rfl
  have h0V : (0 : Int) ∈ initUnvisited (partitionGraph tags noFrames ct dc pen) :=
    (hVcps 0).mpr (zero_mem_cuttingPoints tags noFrames)
  have hTV : noFrames ∈ initUnvisited (partitionGraph tags noFrames ct dc pen) :=
    (hVcps noFrames).mpr (noFrames_mem_cuttingPoints tags noFrames)
  obtain ⟨distF, prevF, hloop, hTdist, hkeysF, hprevF⟩ :=
    dijkstraLoop_success (partitionGraph tags noFrames ct dc pen) noFrames HK
      (partitionGraph_adj tags noFrames ct dc pen) HE
      ((initUnvisited (partitionGraph tags noFrames ct dc pen)).length + 2)
      (initUnvisited (partitionGraph tags noFrames ct dc pen))
      (dinsert ([] : List (Int × α)) 0 0) [] 0
      (by omega)
      (initUnvisited_nodup _)
      (fun x hx => hx)
      h0V
      (by omega)
      hTV
      (by
        intro v hv hv0
        refine Or.inr ?_
        have hvcps := (hVcps v).mp hv
        have hvb := hcpsb v hvcps
        rw [edgeWeight_partitionGraph,
          if_pos ⟨zero_mem_cuttingPoints tags noFrames, hvcps, by omega⟩]
        rfl)
      (by rw [dget_dinsert_self]; rfl)
      (by
        intro v hv
        by_cases hv0 : v = 0
        · rw [hv0]; exact h0V
        · rw [dget_dinsert_ne _ _ _ _ (fun hc => hv0 hc.symm)] at hv
          simp [dget] at hv)
      (by
        intro v dv hv hv0
        rw [dget_dinsert_ne _ _ _ _ (fun hc => hv0 hc.symm)] at hv
        simp [dget] at hv)
  obtain ⟨pth, hrec, hh, hl, hchain, hmem⟩ :=
    reconLoop_spec (partitionGraph tags noFrames ct dc pen) distF prevF HE hprevF
      (prevF.length + 2) noFrames [noFrames] noFrames
      (by have := List.length_filter_le (fun kv => kv.1 ≤ noFrames) prevF; omega)
      hTdist rfl rfl (List.chain'_singleton noFrames)
      (by intro x hx; obtain rfl := List.mem_singleton.mp hx; exact hTdist)
  refine ⟨pth, ?_, hh, hl, hchain, fun x hx => (hVcps x).mp (hkeysF x (hmem x hx))⟩
  rw [partition, dijkstra, ← partitionGraph, hloop, except_ok_bind]
  dsimp only
  rw [if_pos rfl]
  exact hrec

end DLS

namespace DLS

variable {α : Type} [LinearOrderedCommRing α]

/-- Claim C1 amended: `partition` performs no input validation and never
signals InvalidInput.  Any input with a positive frame count whose tag
endpoints lie within `[0, no_frames]` — including malformed intervals with
`start ≥ end` and arbitrary, even negative, weights and penalty — is
processed by the ordinary code path and returns a division normally. -/
theorem claim_C1_amended (tags : List Tag) (noFrames : Int) (ct : List (String × α))
    (dc pen : α) (hnf : 0 < noFrames)
    (hb : ∀ t ∈ tags, 0 ≤ t.2.1 ∧ t.2.1 ≤ noFrames ∧ 0 ≤ t.2.2 ∧ t.2.2 ≤ noFrames) :
    ∃ pth, partition tags noFrames ct dc pen = Except.ok pth := by
  obtain ⟨pth, hok, _⟩ := partition_success tags noFrames ct dc pen hnf hb
  exact ⟨pth, hok⟩

/-- Witness for the amended C1: a malformed interval (`start = 5 ≥ 3 = end`)
with a negative default cost and negative penalty still returns a division. -/
theorem claim_C1_amended_witness :
    ((0 : Int) < 9 ∧ (∀ t ∈ ([("a", 5, 3)] : List Tag),
      0 ≤ t.2.1 ∧ t.2.1 ≤ 9 ∧ 0 ≤ t.2.2 ∧ t.2.2 ≤ 9)) ∧
    ∃ pth, partition [("a", 5, 3)] 9 ([] : List (String × Int)) (-1) (-2) = Except.ok pth :=
  ⟨⟨by decide, by decide⟩,
    claim_C1_amended [("a", 5, 3)] 9 [] (-1) (-2) (by decide) (by decide)⟩

/-- Claim C8 (confirmed): for every well-formed input (positive frame
count, intervals satisfying `0 ≤ start < end ≤ no_frames`, non-negative
weights and penalty) the shortest-path loop reaches the target vertex
`no_frames` after finitely many iterations and `partition` returns a
division ending at `no_frames`. -/
theorem claim_C8_termination (tags : List Tag) (noFrames : Int) (ct : List (String × α))
    (dc pen : α) (hnf : 0 < noFrames)
    (hb : ∀ t ∈ tags, 0 ≤ t.2.1 ∧ t.2.1 < t.2.2 ∧ t.2.2 ≤ noFrames)
    (hw : ∀ lw ∈ ct, 0 ≤ lw.2) (hdc : 0 ≤ dc) (hpen : 0 ≤ pen) :
    ∃ pth, partition tags noFrames ct dc pen = Except.ok pth ∧
      pth.getLast? = some noFrames := by
  obtain ⟨pth, hok, _, hl, _, _⟩ := partition_success tags noFrames ct dc pen hnf
    (fun t ht => by have := hb t ht; exact ⟨by omega, by omega, by omega, by omega⟩)
  exact ⟨pth, hok, hl⟩

/-- Witness for C8 on the repository's first test scenario. -/
theorem claim_C8_termination_witness :
    ((0 : Int) < 9 ∧ (∀ t ∈ ([("cat", 3, 9), ("dog", 5, 8), ("people", 0, 6)] : List Tag),
        0 ≤ t.2.1 ∧ t.2.1 < t.2.2 ∧ t.2.2 ≤ 9) ∧
      (∀ lw ∈ ([] : List (String × Int)), 0 ≤ lw.2) ∧ (0 : Int) ≤ 1 ∧ (0 : Int) ≤ 3) ∧
    ∃ pth, partition [("cat", 3, 9), ("dog", 5, 8), ("people", 0, 6)] 9
        ([] : List (String × Int)) 1 3 = Except.ok pth ∧ pth.getLast? = some 9 :=
  ⟨⟨by decide, by decide, by simp, by decide, by decide⟩,
    claim_C8_termination [("cat", 3, 9), ("dog", 5, 8), ("people", 0, 6)] 9 [] 1 3
      (by decide) (by decide) (by simp) (by decide) (by decide)⟩

/-- Claim C4 amended: for every well-formed input the returned sequence
STARTS WITH the implicit start `0` (rather than excluding it), is strictly
increasing, has `no_frames` as its last element, and every element is a
candidate cut point — `0`, `no_frames`, or the start or end of some tag
interval. -/
theorem claim_C4_amended (tags : List Tag) (noFrames : Int) (ct : List (String × α))
    (dc pen : α) (hnf : 0 < noFrames)
    (hb : ∀ t ∈ tags, 0 ≤ t.2.1 ∧ t.2.1 < t.2.2 ∧ t.2.2 ≤ noFrames) :
    ∃ pth, partition tags noFrames ct dc pen = Except.ok pth ∧
      pth.head? = some 0 ∧ pth.Chain' (· < ·) ∧ pth.getLast? = some noFrames ∧
      ∀ x ∈ pth, x = 0 ∨ x = noFrames ∨ ∃ t ∈ tags, x = t.2.1 ∨ x = t.2.2 := by
  obtain ⟨pth, hok, hh, hl, hchain, hmem⟩ := partition_success tags noFrames ct dc pen hnf
    (fun t ht => by have := hb t ht; exact ⟨by omega, by omega, by omega, by omega⟩)
  exact ⟨pth, hok, hh, hchain, hl, fun x hx => mem_cuttingPoints.mp (hmem x hx)⟩

/-- Witness for the amended C4 on the repository's first test scenario. -/
theorem claim_C4_amended_witness :
    ((0 : Int) < 9 ∧ (∀ t ∈ ([("cat", 3, 9), ("dog", 5, 8), ("people", 0, 6)] : List Tag),
      0 ≤ t.2.1 ∧ t.2.1 < t.2.2 ∧ t.2.2 ≤ 9)) ∧
    ∃ pth, partition [("cat", 3, 9), ("dog", 5, 8), ("people", 0, 6)] 9
        ([] : List (String × Int)) 1 3 = Except.ok pth ∧
      pth.head? = some 0 ∧ pth.Chain' (· < ·) ∧ pth.getLast? = some 9 ∧
      ∀ x ∈ pth, x = 0 ∨ x = 9 ∨
        ∃ t ∈ ([("cat", 3, 9), ("dog", 5, 8), ("people", 0, 6)] : List Tag),
          x = t.2.1 ∨ x = t.2.2 :=
  ⟨⟨by decide, by decide⟩,
    claim_C4_amended [("cat", 3, 9), ("dog", 5, 8), ("people", 0, 6)] 9 [] 1 3
      (by decide) (by decide)⟩

end DLS

namespace DLS

variable {α : Type} [LinearOrderedCommRing α]

/-! ### Error analysis: every failure of the shortest-path routine is a KeyError -/

theorem relaxStep_error (current : Int) (dp : List (Int × α) × List (Int × Int))
    (nb : Int × α) (e : PyErr) (h : relaxStep current dp nb = Except.error e) :
    e = PyErr.keyError := by
  obtain ⟨dist, prev⟩ := dp
  cases hc : dget dist current with
  | none =>
    rw [relaxStep] at h
    dsimp only at h
    rw [hc] at h
    rw [show ((match (none : Option α) with
        | some x => Except.ok x
        | none => Except.error PyErr.keyError) >>= fun dc =>
          (match dget dist nb.1 with
          | none => Except.ok (dinsert dist nb.1 (dc + nb.2), dinsert prev nb.1 current)
          | some dn =>
              if dc + nb.2 < dn then
                Except.ok (dinsert dist nb.1 (dc + nb.2), dinsert prev nb.1 current)
              else Except.ok (dist, prev)) :
        Except PyErr (List (Int × α) × List (Int × Int))) =
        Except.error PyErr.keyError from rfl] at h
    injection h with h
    exact h.symm
  | some dc =>
    rw [relaxStep_eval current dist prev nb dc hc] at h
    revert h
    cases dget dist nb.1 with
    | none => intro h; exact Except.noConfusion h
    | some dn =>
      intro h
      dsimp only at h
      by_cases hlt : dc + nb.2 < dn
      · rw [if_pos hlt] at h
        exact Except.noConfusion h
      · rw [if_neg hlt] at h
        exact Except.noConfusion h

theorem selStep_error (dist : List (Int × α)) (st : Option α × Int) (v : Int) (e : PyErr)
    (h : selStep dist st v = Except.error e) : e = PyErr.keyError := by
  cases hv : dget dist v with
  | none =>
    rw [selStep] at h
    dsimp only at h
    rw [hv] at h
    rw [show ((match (none : Option α) with
        | some x => Except.ok x
        | none => Except.error PyErr.keyError) >>= fun dv =>
          (match st.1 with
          | none => Except.ok ((some dv : Option α), v)
          | some md => if dv < md then Except.ok ((some dv : Option α), v)
            else Except.ok st) :
        Except PyErr (Option α × Int)) = Except.error PyErr.keyError from rfl] at h
    injection h with h
    exact h.symm
  | some dv =>
    rw [selStep_eval dist st v dv hv] at h
    revert h
    cases st.1 with
    | none => intro h; exact Except.noConfusion h
    | some md =>
      intro h
      dsimp only at h
      by_cases hlt : dv < md
      · rw [if_pos hlt] at h
        exact Except.noConfusion h
      · rw [if_neg hlt] at h
        exact Except.noConfusion h

theorem foldlM_error {σ β : Type} (f : σ → β → Except PyErr σ)
    (hf : ∀ s b e, f s b = Except.error e → e = PyErr.keyError) :
    ∀ (l : List β) (init : σ) (e : PyErr),
    l.foldlM f init = Except.error e → e = PyErr.keyError := by
  intro l
  induction l with
  | nil =>
    intro init e h
    rw [List.foldlM_nil] at h
    exact Except.noConfusion h
  | cons b l ih =>
    intro init e h
    rw [List.foldlM_cons] at h
    cases hf0 : f init b with
    | error e0 =>
      rw [hf0, except_error_bind] at h
      injection h with h
      exact h ▸ hf init b e0 hf0
    | ok s1 =>
      rw [hf0, except_ok_bind] at h
      exact ih s1 e h

theorem relax_error (current : Int) (adj : List (Int × α)) (dist : List (Int × α))
    (prev : List (Int × Int)) (e : PyErr)
    (h : relax current adj dist prev = Except.error e) : e = PyErr.keyError := by
  rw [relax] at h
  exact foldlM_error (relaxStep current) (relaxStep_error current) adj (dist, prev) e h

theorem selectMin_error (dist : List (Int × α)) (unvisited : List Int) (current : Int)
    (e : PyErr) (h : selectMin dist unvisited current = Except.error e) :
    e = PyErr.keyError := by
  rw [selectMin] at h
  cases hf : unvisited.foldlM (selStep dist) ((none : Option α), current) with
  | error e0 =>
    rw [hf, except_error_bind] at h
    injection h with h
    exact h ▸ foldlM_error (selStep dist) (selStep_error dist) unvisited _ e0 hf
  | ok st =>
    rw [hf, except_ok_bind] at h
    exact Except.noConfusion h

end DLS

namespace DLS

variable {α : Type} [LinearOrderedCommRing α]

theorem selStep_ok_cases (dist : List (Int × α)) (st : Option α × Int) (v : Int)
    (st₁ : Option α × Int) (h : selStep dist st v = Except.ok st₁) :
    (st.1 ≠ none ∧ st₁ = st) ∨ ∃ dv, dget dist v = some dv ∧ st₁ = (some dv, v) := by
  cases hv : dget dist v with
  | none =>
    rw [selStep] at h
    dsimp only at h
    rw [hv] at h
    exact Except.noConfusion h
  | some dv =>
    rw [selStep_eval dist st v dv hv] at h
    revert h
    cases hst : st.1 with
    | none => intro h; exact Or.inr ⟨dv, rfl, (Except.ok.inj h).symm⟩
    | some md =>
      intro h
      dsimp only at h
      by_cases hlt : dv < md
      · rw [if_pos hlt] at h
        exact Or.inr ⟨dv, rfl, (Except.ok.inj h).symm⟩
      · rw [if_neg hlt] at h
        refine Or.inl ⟨?_, (Except.ok.inj h).symm⟩
        simp

theorem selectMin_fold_ok_mem (dist : List (Int × α)) :
    ∀ (l : List Int) (st st' : Option α × Int),
    l.foldlM (selStep dist) st = Except.ok st' →
    st' = st ∨ (st'.2 ∈ l ∧ (dget dist st'.2).isSome) := by
  intro l
  induction l with
  | nil =>
    intro st st' h
    rw [List.foldlM_nil] at h
    exact Or.inl (Except.ok.inj h).symm
  | cons v l ih =>
    intro st st' h
    rw [List.foldlM_cons] at h
    cases h0 : selStep dist st v with
    | error e =>
      rw [h0, except_error_bind] at h
      exact Except.noConfusion h
    | ok st₁ =>
      rw [h0, except_ok_bind] at h
      rcases ih st₁ st' h with rfl | ⟨hmem, hsome⟩
      · rcases selStep_ok_cases dist st v st' h0 with ⟨_, rfl⟩ | ⟨dv, hdv, rfl⟩
        · exact Or.inl rfl
        · refine Or.inr ⟨List.mem_cons_self _ _, ?_⟩
          rw [hdv]
          rfl
      · exact Or.inr ⟨List.mem_cons_of_mem _ hmem, hsome⟩

theorem selectMin_ok_cases (dist : List (Int × α)) (uv : List Int) (cur m : Int)
    (h : selectMin dist uv cur = Except.ok m) :
    (m = cur ∨ (m ∈ uv ∧ (dget dist m).isSome)) ∧ (uv ≠ [] → m ∈ uv) := by
  rw [selectMin] at h
  cases hf : uv.foldlM (selStep dist) ((none : Option α), cur) with
  | error e =>
    rw [hf, except_error_bind] at h
    exact Except.noConfusion h
  | ok st =>
    rw [hf, except_ok_bind] at h
    obtain rfl : st.2 = m := Except.ok.inj h
    constructor
    · rcases selectMin_fold_ok_mem dist uv _ st hf with rfl | ⟨hmem, hsome⟩
      · exact Or.inl rfl
      · exact Or.inr ⟨hmem, hsome⟩
    · intro hne
      cases uv with
      | nil => exact absurd rfl hne
      | cons v l =>
        rw [List.foldlM_cons] at hf
        cases h0 : selStep dist ((none : Option α), cur) v with
        | error e =>
          rw [h0, except_error_bind] at hf
          exact Except.noConfusion hf
        | ok st₁ =>
          rw [h0, except_ok_bind] at hf
          rcases selStep_ok_cases dist _ v st₁ h0 with ⟨hne2, rfl⟩ | ⟨dv, _, rfl⟩
          · exact absurd rfl hne2
          · rcases selectMin_fold_ok_mem dist l _ st hf with rfl | ⟨hmem, _⟩
            · exact List.mem_cons_self _ _
            · exact List.mem_cons_of_mem _ hmem

theorem relaxStep_ok_cases (current : Int) (dist : List (Int × α)) (prev : List (Int × Int))
    (nb : Int × α) (d1 : List (Int × α)) (p1 : List (Int × Int))
    (h : relaxStep current (dist, prev) nb = Except.ok (d1, p1)) :
    (d1 = dist ∧ p1 = prev) ∨ ∃ dc, dget dist current = some dc ∧
      d1 = dinsert dist nb.1 (dc + nb.2) ∧ p1 = dinsert prev nb.1 current := by
  cases hc : dget dist current with
  | none =>
    rw [relaxStep] at h
    dsimp only at h
    rw [hc] at h
    exact Except.noConfusion h
  | some dc =>
    rw [relaxStep_eval current dist prev nb dc hc] at h
    revert h
    cases dget dist nb.1 with
    | none =>
      intro h
      have h2 := Except.ok.inj h
      rw [Prod.mk.injEq] at h2
      exact Or.inr ⟨dc, rfl, h2.1.symm, h2.2.symm⟩
    | some dn =>
      intro h
      dsimp only at h
      by_cases hlt : dc + nb.2 < dn
      · rw [if_pos hlt] at h
        have h2 := Except.ok.inj h
        rw [Prod.mk.injEq] at h2
        exact Or.inr ⟨dc, rfl, h2.1.symm, h2.2.symm⟩
      · rw [if_neg hlt] at h
        have h2 := Except.ok.inj h
        rw [Prod.mk.injEq] at h2
        exact Or.inl ⟨h2.1.symm, h2.2.symm⟩

theorem relax_keys (current : Int) :
    ∀ (adj : List (Int × α)) (dist : List (Int × α)) (prev : List (Int × Int))
      (dist' : List (Int × α)) (prev' : List (Int × Int)),
    relax current adj dist prev = Except.ok (dist', prev') →
    ∀ v, (dget dist' v).isSome → (dget dist v).isSome ∨ v ∈ adj.map Prod.fst := by
  intro adj
  induction adj with
  | nil =>
    intro dist prev dist' prev' h v hv
    rw [relax, List.foldlM_nil] at h
    have h2 := Except.ok.inj h
    rw [Prod.mk.injEq] at h2
    rw [h2.1]
    exact Or.inl hv
  | cons nb adj ih =>
    intro dist prev dist' prev' h v hv
    rw [relax, List.foldlM_cons] at h
    cases h0 : relaxStep current (dist, prev) nb with
    | error e =>
      rw [h0, except_error_bind] at h
      exact Except.noConfusion h
    | ok dp1 =>
      rw [h0, except_ok_bind] at h
      obtain ⟨d1, p1⟩ := dp1
      rcases ih d1 p1 dist' prev' h v hv with hd1 | hmem
      · rcases relaxStep_ok_cases current dist prev nb d1 p1 h0 with ⟨rfl, rfl⟩ | ⟨dc, _, rfl, rfl⟩
        · exact Or.inl hd1
        · rcases (dget_dinsert_isSome dist nb.1 v (dc + nb.2)).mp hd1 with hs | rfl
          · exact Or.inl hs
          · exact Or.inr (by simp)
      · exact Or.inr (by simp [List.mem_cons]; exact Or.inr (by simpa using hmem))

end DLS

namespace DLS

variable {α : Type} [LinearOrderedCommRing α]

/-- With a negative target the `while True` loop can never break: in a graph
whose edges go from smaller to larger vertices, every distance key and the
current vertex stay non-negative, so the loop always dies with a `KeyError`
(and never runs out of fuel while `fuel > |unvisited|`). -/
theorem dijkstraLoop_err_neg (g : List (Int × List (Int × α))) (T : Int) (hT : T < 0)
    (HUP : ∀ u adj, dget g u = some adj → ∀ nb ∈ adj, u < nb.1) :
    ∀ (fuel : Nat) (unvisited : List Int) (dist : List (Int × α)) (prev : List (Int × Int))
      (current : Int),
    unvisited.length < fuel →
    (∀ v, (dget dist v).isSome → 0 ≤ v) →
    0 ≤ current →
    dijkstraLoop g T fuel unvisited dist prev current = Except.error PyErr.keyError := by
  intro fuel
  induction fuel with
  | zero =>
    intro uv dist prev cur hlen hkeys hcur
    exact absurd hlen (Nat.not_lt_zero _)
  | succ f ih =>
    intro uv dist prev cur hlen hkeys hcur
    by_cases hmem : cur ∈ uv
    · rw [dijkstraLoop, if_pos hmem]
      cases hadj : dget g cur with
      | none => rfl
      | some adj =>
        dsimp only
        rw [except_ok_bind]
        cases hrel : relax cur adj dist prev with
        | error e =>
          rw [except_error_bind, relax_error cur adj dist prev e hrel]
        | ok dp =>
          obtain ⟨d1, p1⟩ := dp
          rw [except_ok_bind]
          dsimp only
          cases hsel : selectMin d1 (uv.erase cur) cur with
          | error e =>
            rw [except_error_bind, selectMin_error d1 (uv.erase cur) cur e hsel]
          | ok m =>
            rw [except_ok_bind]
            have hkeys1 : ∀ v, (dget d1 v).isSome → 0 ≤ v := by
              intro v hv
              rcases relax_keys cur adj dist prev d1 p1 hrel v hv with hs | hmv
              · exact hkeys v hs
              · obtain ⟨nb, hnb, rfl⟩ := List.mem_map.mp hmv
                have := HUP cur adj hadj nb hnb
                omega
            have hm0 : 0 ≤ m := by
              rcases (selectMin_ok_cases d1 (uv.erase cur) cur m hsel).1 with rfl | ⟨_, hsome⟩
              · exact hcur
              · exact hkeys1 m hsome
            rw [if_neg (by omega : ¬ m = T)]
            have hpos : 0 < uv.length := List.length_pos.mpr (List.ne_nil_of_mem hmem)
            have herase := List.length_erase_of_mem hmem
            exact ih (uv.erase cur) d1 p1 m (by omega) hkeys1 hm0
    · rw [dijkstraLoop, if_neg hmem]

/-- With target `0`, once `0` has left the unvisited set and the current
vertex is nonzero the loop can never break, so it always dies with a
`KeyError`. -/
theorem dijkstraLoop_err_zero (g : List (Int × List (Int × α))) :
    ∀ (fuel : Nat) (unvisited : List Int) (dist : List (Int × α)) (prev : List (Int × Int))
      (current : Int),
    unvisited.length < fuel →
    current ≠ 0 →
    (0 : Int) ∉ unvisited →
    dijkstraLoop g 0 fuel unvisited dist prev current = Except.error PyErr.keyError := by
  intro fuel
  induction fuel with
  | zero =>
    intro uv dist prev cur hlen hcur h0
    exact absurd hlen (Nat.not_lt_zero _)
  | succ f ih =>
    intro uv dist prev cur hlen hcur h0
    by_cases hmem : cur ∈ uv
    · rw [dijkstraLoop, if_pos hmem]
      cases hadj : dget g cur with
      | none => rfl
      | some adj =>
        dsimp only
        rw [except_ok_bind]
        cases hrel : relax cur adj dist prev with
        | error e =>
          rw [except_error_bind, relax_error cur adj dist prev e hrel]
        | ok dp =>
          obtain ⟨d1, p1⟩ := dp
          rw [except_ok_bind]
          dsimp only
          cases hsel : selectMin d1 (uv.erase cur) cur with
          | error e =>
            rw [except_error_bind, selectMin_error d1 (uv.erase cur) cur e hsel]
          | ok m =>
            rw [except_ok_bind]
            have hm0 : m ≠ 0 := by
              rcases (selectMin_ok_cases d1 (uv.erase cur) cur m hsel).1 with rfl | ⟨hme, _⟩
              · exact hcur
              · exact fun hc => h0 (hc ▸ List.mem_of_mem_erase hme)
            rw [if_neg hm0]
            have hpos : 0 < uv.length := List.length_pos.mpr (List.ne_nil_of_mem hmem)
            have herase := List.length_erase_of_mem hmem
            exact ih (uv.erase cur) d1 p1 m (by omega) hm0
              (fun hc => h0 (List.mem_of_mem_erase hc))
    · rw [dijkstraLoop, if_neg hmem]

end DLS

namespace DLS

variable {α : Type} [LinearOrderedCommRing α]

/-- In the segment graph, every stored adjacency entry points to a strictly
larger vertex. -/
theorem partitionGraph_up (tags : List Tag) (noFrames : Int) (ct : List (String × α))
    (dc pen : α) :
    ∀ u adj, dget (partitionGraph tags noFrames ct dc pen) u = some adj →
      ∀ nb ∈ adj, u < nb.1 := by
  intro u adj hadj nb hnb
  have hedge := partitionGraph_adj tags noFrames ct dc pen u adj hadj nb hnb
  rw [edgeWeight_partitionGraph] at hedge
  by_cases hcond : u ∈ cuttingPoints tags noFrames ∧ nb.1 ∈ cuttingPoints tags noFrames ∧
      u < nb.1
  · exact hcond.2.2
  · rw [if_neg hcond] at hedge
    exact absurd hedge (by simp)

/-- Claim C10 (confirmed): for every call with `no_frames ≤ 0` — whatever the
tag set, cost table, default cost and penalty — `partition` raises an uncaught
`KeyError` from the shortest-path routine instead of returning a division list
or signalling any InvalidInput condition.  With `no_frames < 0` the loop's
current vertex and all distance keys stay non-negative, so the loop can never
break at the target and dies reading a missing key; with `no_frames = 0` the
target is the start vertex, which is removed in the first iteration, so the
loop can never select it again and likewise dies with a `KeyError`. -/
theorem claim_C10_keyerror (tags : List Tag) (noFrames : Int) (ct : List (String × α))
    (dc pen : α) (hnf : noFrames ≤ 0) :
    partition tags noFrames ct dc pen = Except.error PyErr.keyError := by
  rcases lt_or_eq_of_le hnf with hlt | heq
  · -- negative target: the loop never reaches it
    have hkeys0 : ∀ v, (dget (dinsert ([] : List (Int × α)) 0 0) v).isSome → (0 : Int) ≤ v := by
      intro v hv
      by_cases hv0 : v = 0
      · omega
      · rw [dget_dinsert_ne _ _ _ _ (fun hc => hv0 hc.symm)] at hv
        simp [dget] at hv
    have hloop := dijkstraLoop_err_neg (partitionGraph tags noFrames ct dc pen) noFrames hlt
      (partitionGraph_up tags noFrames ct dc pen)
      ((initUnvisited (partitionGraph tags noFrames ct dc pen)).length + 2)
      (initUnvisited (partitionGraph tags noFrames ct dc pen))
      (dinsert ([] : List (Int × α)) 0 0) [] 0
      (by omega) hkeys0 (le_refl 0)
    rw [partition, dijkstra, ← partitionGraph, hloop, except_error_bind]
  · -- zero target: the start vertex is the target and is removed first
    subst heq
    have hnd := initUnvisited_nodup (partitionGraph tags 0 ct dc pen) (α := α)
    have hloop : dijkstraLoop (partitionGraph tags 0 ct dc pen) 0
        ((initUnvisited (partitionGraph tags 0 ct dc pen)).length + 2)
        (initUnvisited (partitionGraph tags 0 ct dc pen))
        (dinsert ([] : List (Int × α)) 0 0) [] 0 = Except.error PyErr.keyError := by
      rw [show (initUnvisited (partitionGraph tags 0 ct dc pen)).length + 2 =
        (initUnvisited (partitionGraph tags 0 ct dc pen)).length + 1 + 1 from by omega]
      by_cases h0 : (0 : Int) ∈ initUnvisited (partitionGraph tags 0 ct dc pen)
      · obtain ⟨w, hw, hw0⟩ : ∃ w ∈ initUnvisited (partitionGraph tags 0 ct dc pen),
            w ≠ 0 := by
          obtain ⟨s, e, hs, he, hse, h0se⟩ :=
            (mem_initUnvisited_partitionGraph tags 0 ct dc pen 0).mp h0
          rcases h0se with h0s | h0e
          · exact ⟨e, (mem_initUnvisited_partitionGraph tags 0 ct dc pen e).mpr
              ⟨s, e, hs, he, hse, Or.inr rfl⟩, by omega⟩
          · exact ⟨s, (mem_initUnvisited_partitionGraph tags 0 ct dc pen s).mpr
              ⟨s, e, hs, he, hse, Or.inl rfl⟩, by omega⟩
        rw [dijkstraLoop, if_pos h0]
        cases hadj : dget (partitionGraph tags 0 ct dc pen) 0 with
        | none => rfl
        | some adj =>
          dsimp only
          rw [except_ok_bind]
          cases hrel : relax 0 adj (dinsert ([] : List (Int × α)) 0 0) [] with
          | error e =>
            rw [except_error_bind, relax_error _ _ _ _ e hrel]
          | ok dp =>
            obtain ⟨d1, p1⟩ := dp
            rw [except_ok_bind]
            dsimp only
            cases hsel : selectMin d1
                ((initUnvisited (partitionGraph tags 0 ct dc pen)).erase 0) 0 with
            | error e =>
              rw [except_error_bind, selectMin_error _ _ _ e hsel]
            | ok m =>
              rw [except_ok_bind]
              have hwE : w ∈ (initUnvisited (partitionGraph tags 0 ct dc pen)).erase 0 :=
                (List.mem_erase_of_ne hw0).mpr hw
              have hmE : m ∈ (initUnvisited (partitionGraph tags 0 ct dc pen)).erase 0 :=
                (selectMin_ok_cases d1 _ 0 m hsel).2 (List.ne_nil_of_mem hwE)
              have hm0 : m ≠ 0 := ((List.Nodup.mem_erase_iff hnd).mp hmE).1
              rw [if_neg hm0]
              have hpos : 0 < (initUnvisited (partitionGraph tags 0 ct dc pen)).length :=
                List.length_pos.mpr (List.ne_nil_of_mem h0)
              have herase := List.length_erase_of_mem h0
              exact dijkstraLoop_err_zero (partitionGraph tags 0 ct dc pen)
                ((initUnvisited (partitionGraph tags 0 ct dc pen)).length + 1)
                ((initUnvisited (partitionGraph tags 0 ct dc pen)).erase 0) d1 p1 m
                (by omega) hm0
                (fun hc => ((List.Nodup.mem_erase_iff hnd).mp hc).1 rfl)
      · rw [dijkstraLoop, if_neg h0]
    rw [partition, dijkstra, ← partitionGraph, hloop, except_error_bind]

/-- Witness for C10: a concrete call with `no_frames = 0` and a nonempty
tag set dies with a `KeyError`. -/
theorem claim_C10_keyerror_witness :
    (0 : Int) ≤ 0 ∧ partition [("a", 5, 3)] 0 ([] : List (String × Int)) 1 2 =
      Except.error PyErr.keyError :=
  ⟨le_refl 0, claim_C10_keyerror [("a", 5, 3)] 0 [] 1 2 (by decide)⟩

end DLS

namespace DLS

variable {α : Type} [LinearOrderedCommRing α]

/-! ### Toolkit for the shortest-path optimality argument -/

theorem selStep_fold_ok_all (dist : List (Int × α)) :
    ∀ (l : List Int) (st st' : Option α × Int),
    l.foldlM (selStep dist) st = Except.ok st' → ∀ v ∈ l, (dget dist v).isSome := by
  intro l
  induction l with
  | nil => intro st st' _ v hv; exact absurd hv (List.not_mem_nil v)
  | cons x l ih =>
    intro st st' h v hv
    rw [List.foldlM_cons] at h
    cases h0 : selStep dist st x with
    | error e =>
      rw [h0, except_error_bind] at h
      exact Except.noConfusion h
    | ok st₁ =>
      rcases List.mem_cons.mp hv with rfl | hvl
      · cases hx : dget dist v with
        | none =>
          rw [selStep] at h0
          dsimp only at h0
          rw [hx] at h0
          exact Except.noConfusion h0
        | some dv => rfl
      · rw [h0, except_ok_bind] at h
        exact ih st₁ st' h v hvl

theorem selectMin_ok_all (dist : List (Int × α)) (uv : List Int) (cur m : Int)
    (h : selectMin dist uv cur = Except.ok m) : ∀ v ∈ uv, (dget dist v).isSome := by
  rw [selectMin] at h
  cases hf : uv.foldlM (selStep dist) ((none : Option α), cur) with
  | error e =>
    rw [hf, except_error_bind] at h
    exact Except.noConfusion h
  | ok st => exact selStep_fold_ok_all dist uv _ st hf

theorem not_mem_erase_iff (l : List Int) (hnd : l.Nodup) (x c : Int) :
    x ∉ l.erase c ↔ x = c ∨ x ∉ l := by
  rw [List.Nodup.mem_erase_iff hnd]
  by_cases hx : x = c
  · simp [hx]
  · simp [hx]

theorem pathCost_nil (g : List (Int × List (Int × α))) : pathCost g [] = 0 := rfl

theorem pathCost_one (g : List (Int × List (Int × α))) (u : Int) : pathCost g [u] = 0 := rfl

theorem pathCost_cons (g : List (Int × List (Int × α))) (u v : Int) (rest : List Int) :
    pathCost g (u :: v :: rest) = (edgeWeight g u v).getD 0 + pathCost g (v :: rest) := rfl

theorem pathCost_nonneg (g : List (Int × List (Int × α)))
    (HW : ∀ u v c, edgeWeight g u v = some c → 0 ≤ c) :
    ∀ p : List Int, p.Chain' (fun u v => (edgeWeight g u v).isSome) → 0 ≤ pathCost g p := by
  intro p
  induction p with
  | nil => intro _; rw [pathCost_nil]
  | cons u rest ih =>
    intro hch
    cases rest with
    | nil => rw [pathCost_one]
    | cons v rest' =>
      obtain ⟨he, hch'⟩ := List.chain'_cons.mp hch
      obtain ⟨c, hc⟩ := Option.isSome_iff_exists.mp he
      rw [pathCost_cons, hc, Option.getD_some]
      exact add_nonneg (HW u v c hc) (ih hch')

theorem isPathFrom_single (g : List (Int × List (Int × α))) (a : Int) :
    IsPathFrom g a a [a] := by
  refine ⟨rfl, rfl, List.chain'_singleton a⟩

theorem pathCost_concat (g : List (Int × List (Int × α))) :
    ∀ (p : List Int) (u v : Int) (c : α), p.getLast? = some u →
      edgeWeight g u v = some c → pathCost g (p ++ [v]) = pathCost g p + c := by
  intro p
  induction p with
  | nil => intro u v c hl _; exact absurd hl (by simp)
  | cons x rest ih =>
    intro u v c hl hc
    cases rest with
    | nil =>
      obtain rfl : x = u := by
        rw [List.getLast?_singleton] at hl
        exact Option.some_inj.mp hl
      rw [List.singleton_append, pathCost_cons, pathCost_one, pathCost_one, hc,
        Option.getD_some]
      ring
    | cons y rest' =>
      have hl' : (y :: rest').getLast? = some u := by
        rw [List.getLast?_cons_cons] at hl
        exact hl
      have hih := ih u v c hl' hc
      rw [List.cons_append, List.cons_append, pathCost_cons, pathCost_cons]
      rw [List.cons_append] at hih
      rw [hih]
      ring

theorem isPathFrom_concat (g : List (Int × List (Int × α))) (p : List Int) (u v : Int) (c : α)
    (hp : IsPathFrom g 0 u p) (hc : edgeWeight g u v = some c) :
    IsPathFrom g 0 v (p ++ [v]) ∧ pathCost g (p ++ [v]) = pathCost g p + c := by
  obtain ⟨hh, hl, hch⟩ := hp
  refine ⟨⟨?_, ?_, ?_⟩, pathCost_concat g p u v c hl hc⟩
  · cases p with
    | nil => exact absurd hh (by simp)
    | cons x rest => exact hh
  · rw [List.getLast?_concat]
  · rw [List.chain'_append]
    refine ⟨hch, List.chain'_singleton v, ?_⟩
    intro x hx y hy
    rw [hl] at hx
    obtain rfl := Option.mem_some_iff.mp hx
    obtain rfl := Option.mem_some_iff.mp hy
    rw [hc]
    rfl

theorem isPathFrom_cons (g : List (Int × List (Int × α))) (q : List Int) (a y b : Int) (c : α)
    (hc : edgeWeight g a y = some c) (hq : IsPathFrom g y b q) :
    IsPathFrom g a b (a :: q) ∧ pathCost g (a :: q) = c + pathCost g q := by
  obtain ⟨hh, hl, hch⟩ := hq
  cases q with
  | nil => exact absurd hh (by simp)
  | cons z rest =>
    obtain rfl : z = y := Option.some_inj.mp hh
    refine ⟨⟨rfl, ?_, ?_⟩, ?_⟩
    · rw [List.getLast?_cons_cons]
      exact hl
    · rw [List.chain'_cons]
      exact ⟨by rw [hc]; rfl, hch⟩
    · rw [pathCost_cons, hc, Option.getD_some]

theorem isPathFrom_target (g : List (Int × List (Int × α))) :
    ∀ (p : List Int) (a b : Int), IsPathFrom g a b p →
      a = b ∨ ∃ x c, edgeWeight g x b = some c := by
  intro p
  induction p with
  | nil => intro a b hp; exact absurd hp.1 (by simp)
  | cons u rest ih =>
    intro a b hp
    obtain ⟨hh, hl, hch⟩ := hp
    obtain rfl : u = a := Option.some_inj.mp hh
    cases rest with
    | nil => exact Or.inl (Option.some_inj.mp hl)
    | cons y rest' =>
      obtain ⟨he, hch'⟩ := List.chain'_cons.mp hch
      obtain ⟨c₀, hc₀⟩ := Option.isSome_iff_exists.mp he
      rw [List.getLast?_cons_cons] at hl
      rcases ih y b ⟨rfl, hl, hch'⟩ with rfl | hex
      · exact Or.inr ⟨u, c₀, hc₀⟩
      · exact Or.inr hex

theorem path_crossing (g : List (Int × List (Int × α)))
    (HW : ∀ u v c, edgeWeight g u v = some c → 0 ≤ c) (S : Int → Prop) :
    ∀ (p : List Int) (a b : Int), IsPathFrom g a b p → S a → ¬ S b →
      ∃ x y c q, S x ∧ ¬ S y ∧ edgeWeight g x y = some c ∧ IsPathFrom g a x q ∧
        pathCost g q + c ≤ pathCost g p := by
  intro p
  induction p with
  | nil => intro a b hp _ _; exact absurd hp.1 (by simp)
  | cons u rest ih =>
    intro a b hp hSa hSb
    obtain ⟨hh, hl, hch⟩ := hp
    obtain rfl : u = a := Option.some_inj.mp hh
    cases rest with
    | nil =>
      obtain rfl : u = b := Option.some_inj.mp hl
      exact absurd hSa hSb
    | cons y rest' =>
      obtain ⟨he, hch'⟩ := List.chain'_cons.mp hch
      obtain ⟨c₀, hc₀⟩ := Option.isSome_iff_exists.mp he
      rw [List.getLast?_cons_cons] at hl
      have hsub : IsPathFrom g y b (y :: rest') := ⟨rfl, hl, hch'⟩
      by_cases hSy : S y
      · obtain ⟨x, z, c, q, hSx, hSz, hedge, hq, hcost⟩ := ih y b hsub hSy hSb
        obtain ⟨hq', hqc⟩ := isPathFrom_cons g q u y x c₀ hc₀ hq
        refine ⟨x, z, c, u :: q, hSx, hSz, hedge, hq', ?_⟩
        rw [hqc, pathCost_cons, hc₀, Option.getD_some]
        linarith
      · refine ⟨u, y, c₀, [u], hSa, hSy, hc₀, isPathFrom_single g u, ?_⟩
        rw [pathCost_one, pathCost_cons, hc₀, Option.getD_some]
        have h0 : 0 ≤ pathCost g (y :: rest') := pathCost_nonneg g HW _ hch'
        linarith

end DLS

namespace DLS

variable {α : Type} [LinearOrderedCommRing α]

/-- Optimality of the hand-rolled Dijkstra loop.  Whenever the loop returns
normally, the distance recorded for the returned vertex is the shortest-path
distance from `0`, and the `prev` links record edges with exact distance
differences.  The invariants: processed vertices carry exact distances,
every stored distance is achieved by some path, processed vertices are
fully relaxed, and `prev` links join processed vertices to their targets. -/
theorem dijkstraLoop_optimal (g : List (Int × List (Int × α))) (T : Int)
    (HADJ : ∀ u adj, dget g u = some adj → ∀ nb ∈ adj, edgeWeight g u nb.1 = some nb.2)
    (HUP : ∀ u v c, edgeWeight g u v = some c → u < v)
    (HW : ∀ u v c, edgeWeight g u v = some c → 0 ≤ c) :
    ∀ (fuel : Nat) (uv : List Int) (dist : List (Int × α)) (prev : List (Int × Int))
      (cur : Int) (res : List (Int × α) × List (Int × Int) × Int),
    dijkstraLoop g T fuel uv dist prev cur = Except.ok res →
    uv.Nodup →
    (∀ v ∈ uv, v ∈ initUnvisited g) →
    (∀ v, v ∈ initUnvisited g → v ∉ uv →
      ∃ dv, dget dist v = some dv ∧ ReachesMin g v dv) →
    (∃ dc, dget dist cur = some dc ∧ ReachesMin g cur dc) →
    (∀ v dv, dget dist v = some dv → ∃ p, IsPathFrom g 0 v p ∧ pathCost g p = dv) →
    (∀ x dx, x ∉ uv → dget dist x = some dx → ∀ y c, edgeWeight g x y = some c →
      ∃ dy, dget dist y = some dy ∧ dy ≤ dx + c) →
    (∀ v u, dget prev v = some u → u ∉ uv ∧ ∃ du c, dget dist u = some du ∧
      edgeWeight g u v = some c ∧ dget dist v = some (du + c)) →
    (∀ v dv, dget dist v = some dv → v = 0 ∨ (dget prev v).isSome) →
    ((0 : Int) ∉ uv ∨ cur = 0) →
    dget dist 0 = some 0 →
    res.2.2 = T ∧
      (∃ dT, dget res.1 T = some dT ∧ ReachesMin g T dT) ∧
      (∀ v u, dget res.2.1 v = some u → ∃ du c, dget res.1 u = some du ∧
        edgeWeight g u v = some c ∧ dget res.1 v = some (du + c)) ∧
      dget res.1 0 = some 0 := by
  intro fuel
  induction fuel with
  | zero =>
    intro uv dist prev cur res h _ _ _ _ _ _ _ _ _ _
    exact Except.noConfusion h
  | succ f ih =>
    intro uv dist prev cur res h hnd hsubV hJ2 hJ3 hJ4 hJ5 hJ6 hJ7 hJ8 hJ9
    by_cases hmem : cur ∈ uv
    · rw [dijkstraLoop, if_pos hmem] at h
      obtain ⟨dc, hdc, hcurEx⟩ := hJ3
      cases hadj : dget g cur with
      | none =>
        rw [hadj] at h
        dsimp only at h
        rw [except_error_bind] at h
        exact Except.noConfusion h
      | some adj =>
        rw [hadj] at h
        dsimp only at h
        rw [except_ok_bind] at h
        have hne : ∀ nb ∈ adj, nb.1 ≠ cur := fun nb hnb =>
          ne_of_gt (HUP cur nb.1 nb.2 (HADJ cur adj hadj nb hnb))
        obtain ⟨dist', prev', hrelok, hcur', htgt, hdich⟩ :=
          relax_spec cur adj dist prev dc hdc hne
        rw [hrelok, except_ok_bind] at h
        dsimp only at h
        cases hsel : selectMin dist' (uv.erase cur) cur with
        | error e =>
          rw [hsel, except_error_bind] at h
          exact Except.noConfusion h
        | ok m =>
          rw [hsel, except_ok_bind] at h
          have hS0 : (0 : Int) ∉ uv.erase cur := by
            rcases hJ8 with h0 | hc0
            · exact fun hc => h0 (List.mem_of_mem_erase hc)
            · exact fun hc => ((List.Nodup.mem_erase_iff hnd).mp hc).1 hc0.symm
          have hval : ∀ x dx, dget dist x = some dx → ReachesMin g x dx →
              dget dist' x = some dx := by
            intro x dx hdx hEx
            rcases hdich x with ⟨hd, _⟩ | ⟨w, hwadj, hset, _, hbound⟩
            · exact hd.trans hdx
            · have hedge : edgeWeight g cur x = some w := HADJ cur adj hadj (x, w) hwadj
              obtain ⟨pc, hpc, hpcc⟩ := hcurEx.2
              obtain ⟨hpath, hcost⟩ := isPathFrom_concat g pc cur x w hpc hedge
              have hlow : dx ≤ dc + w := by
                have hb := hEx.1 (pc ++ [x]) hpath
                rw [hcost, hpcc] at hb
                exact hb
              rw [hset, le_antisymm (hbound dx hdx) hlow]
          have hnoninc : ∀ v dv, dget dist v = some dv →
              ∃ dv', dget dist' v = some dv' ∧ dv' ≤ dv := by
            intro v dv hdv
            rcases hdich v with ⟨hd, _⟩ | ⟨w, _, hset, _, hbound⟩
            · exact ⟨dv, hd.trans hdv, le_refl dv⟩
            · exact ⟨dc + w, hset, hbound dv hdv⟩
          have hJ4' : ∀ v dv, dget dist' v = some dv →
              ∃ p, IsPathFrom g 0 v p ∧ pathCost g p = dv := by
            intro v dv hdv
            rcases hdich v with ⟨hd, _⟩ | ⟨w, hwadj, hset, _, _⟩
            · exact hJ4 v dv (hd.symm.trans hdv)
            · obtain rfl : dc + w = dv := by
                rw [hset] at hdv
                exact Option.some_inj.mp hdv
              have hedge : edgeWeight g cur v = some w := HADJ cur adj hadj (v, w) hwadj
              obtain ⟨pc, hpc, hpcc⟩ := hcurEx.2
              obtain ⟨hpath, hcost⟩ := isPathFrom_concat g pc cur v w hpc hedge
              exact ⟨pc ++ [v], hpath, by rw [hcost, hpcc]⟩
          have hnotmem : ∀ x : Int, x ∉ uv.erase cur → x = cur ∨ x ∉ uv :=
            fun x hx => (not_mem_erase_iff uv hnd x cur).mp hx
          have hJ2' : ∀ v, v ∈ initUnvisited g → v ∉ uv.erase cur →
              ∃ dv, dget dist' v = some dv ∧ ReachesMin g v dv := by
            intro v hvV hv
            rcases hnotmem v hv with rfl | hvu
            · exact ⟨dc, hcur', hcurEx⟩
            · obtain ⟨dv, hdv, hEx⟩ := hJ2 v hvV hvu
              exact ⟨dv, hval v dv hdv hEx, hEx⟩
          have hJ5' : ∀ x dx, x ∉ uv.erase cur → dget dist' x = some dx →
              ∀ y c, edgeWeight g x y = some c →
              ∃ dy, dget dist' y = some dy ∧ dy ≤ dx + c := by
            intro x dx hx hdx y c hedge
            rcases hnotmem x hx with rfl | hxu
            · obtain rfl : dc = dx := by
                rw [hcur'] at hdx
                exact Option.some_inj.mp hdx
              have hmemadj : (y, c) ∈ adj := by
                rw [edgeWeight, hadj, Option.some_bind] at hedge
                exact dget_mem hedge
              exact htgt (y, c) hmemadj
            · have hdold : dget dist x = some dx := by
                rcases hdich x with ⟨hd, _⟩ | ⟨w, hwadj, _, _, _⟩
                · exact hd.symm.trans hdx
                · have hedge2 : edgeWeight g cur x = some w :=
                    HADJ cur adj hadj (x, w) hwadj
                  have hxV : x ∈ initUnvisited g :=
                    (mem_initUnvisited_of_edge g cur x w hedge2).2
                  obtain ⟨dx₀, hdx₀, hEx₀⟩ := hJ2 x hxV hxu
                  have hpres := hval x dx₀ hdx₀ hEx₀
                  rw [hpres] at hdx
                  rw [Option.some_inj.mp hdx] at hdx₀
                  exact hdx₀
              obtain ⟨dy, hdy, hdyle⟩ := hJ5 x dx hxu hdold y c hedge
              obtain ⟨dy', hdy', hdy'le⟩ := hnoninc y dy hdy
              exact ⟨dy', hdy', le_trans hdy'le hdyle⟩
          have hJ6' : ∀ v u, dget prev' v = some u → u ∉ uv.erase cur ∧
              ∃ du c, dget dist' u = some du ∧ edgeWeight g u v = some c ∧
                dget dist' v = some (du + c) := by
            intro v u hpv
            rcases hdich v with ⟨hdv, hpve⟩ | ⟨w, hwadj, hset, hpset, _⟩
            · have hold : dget prev v = some u := hpve.symm.trans hpv
              obtain ⟨huu, du, c, hdu, hedge, hdveq⟩ := hJ6 v u hold
              have huV : u ∈ initUnvisited g := (mem_initUnvisited_of_edge g u v c hedge).1
              obtain ⟨du₂, hdu₂, hExu⟩ := hJ2 u huV huu
              obtain rfl : du₂ = du := by
                rw [hdu₂] at hdu
                exact Option.some_inj.mp hdu
              exact ⟨fun hc => huu (List.mem_of_mem_erase hc),
                du₂, c, hval u du₂ hdu₂ hExu, hedge, hdv.trans hdveq⟩
            · obtain rfl : cur = u := by
                rw [hpset] at hpv
                exact Option.some_inj.mp hpv
              refine ⟨?_, dc, w, hcur', HADJ cur adj hadj (v, w) hwadj, hset⟩
              exact fun hc => ((List.Nodup.mem_erase_iff hnd).mp hc).1 rfl
          have hJ7' : ∀ v dv, dget dist' v = some dv →
              v = 0 ∨ (dget prev' v).isSome := by
            intro v dv hdv
            rcases hdich v with ⟨hd, hp⟩ | ⟨w, _, _, hpset, _⟩
            · rcases hJ7 v dv (hd.symm.trans hdv) with h0 | hs
              · exact Or.inl h0
              · rw [hp]
                exact Or.inr hs
            · rw [hpset]
              exact Or.inr rfl
          have hJ9' : dget dist' 0 = some 0 := by
            rcases hJ8 with h0 | hc0
            · rcases hdich 0 with ⟨hd, _⟩ | ⟨w, hwadj, _, _, _⟩
              · exact hd.trans hJ9
              · have hedge : edgeWeight g cur 0 = some w :=
                  HADJ cur adj hadj (0, w) hwadj
                have h0V : (0 : Int) ∈ initUnvisited g :=
                  (mem_initUnvisited_of_edge g cur 0 w hedge).2
                obtain ⟨d₀, hd₀, hEx₀⟩ := hJ2 0 h0V h0
                obtain rfl : (0 : α) = d₀ := by
                  rw [hJ9] at hd₀
                  exact Option.some_inj.mp hd₀
                exact hval 0 0 hJ9 hEx₀
            · obtain rfl : dc = 0 := by
                rw [hc0, hJ9] at hdc
                exact (Option.some_inj.mp hdc).symm
              rw [← hc0]
              exact hcur'
          have hall := selectMin_ok_all dist' (uv.erase cur) cur m hsel
          obtain ⟨m', hok', hnil, hcons⟩ := selectMin_spec dist' (uv.erase cur) cur hall
          have heqm : m' = m := Except.ok.inj (hok'.symm.trans hsel)
          rw [heqm] at hnil hcons
          have hJ3' : ∃ dm, dget dist' m = some dm ∧ ReachesMin g m dm := by
            by_cases hne2 : uv.erase cur = []
            · obtain rfl := hnil hne2
              exact ⟨dc, hcur', hcurEx⟩
            · obtain ⟨hmE, dm, hdm, hminP⟩ := hcons hne2
              refine ⟨dm, hdm, ?_, hJ4' m dm hdm⟩
              intro p hp
              obtain ⟨x, y, c, q, hSx, hSy, hedge, hq, hqcost⟩ :=
                path_crossing g HW (fun v => v ∉ uv.erase cur) p 0 m hp hS0
                  (not_not.mpr hmE)
              have hxgood : ∃ dx, dget dist' x = some dx ∧ dx ≤ pathCost g q := by
                rcases isPathFrom_target g q 0 x hq with rfl | ⟨x₀, c₀, hcx⟩
                · exact ⟨0, hJ9', pathCost_nonneg g HW q hq.2.2⟩
                · have hxV : x ∈ initUnvisited g :=
                    (mem_initUnvisited_of_edge g x₀ x c₀ hcx).2
                  obtain ⟨dx, hdx, hExx⟩ := hJ2' x hxV hSx
                  exact ⟨dx, hdx, hExx.1 q hq⟩
              obtain ⟨dx, hdx, hdxle⟩ := hxgood
              obtain ⟨dy, hdy, hdyle⟩ := hJ5' x dx hSx hdx y c hedge
              have hmy : dm ≤ dy := hminP y (not_not.mp hSy) dy hdy
              have hcq : pathCost g q + c ≤ pathCost g p := hqcost
              have hW : 0 ≤ c := HW x y c hedge
              linarith
          by_cases hmT : m = T
          · rw [if_pos hmT] at h
            obtain rfl := Except.ok.inj h
            refine ⟨hmT, ?_, ?_, hJ9'⟩
            · obtain ⟨dm, hdm, hEx⟩ := hJ3'
              exact ⟨dm, hmT ▸ hdm, hmT ▸ hEx⟩
            · intro v u hpv
              exact (hJ6' v u hpv).2
          · rw [if_neg hmT] at h
            exact ih (uv.erase cur) dist' prev' m res h
              (hnd.erase cur)
              (fun v hv => hsubV v (List.mem_of_mem_erase hv))
              hJ2' hJ3' hJ4' hJ5' hJ6' hJ7' (Or.inl hS0) hJ9'
    · rw [dijkstraLoop, if_neg hmem] at h
      exact Except.noConfusion h

end DLS

namespace DLS

variable {α : Type} [LinearOrderedCommRing α]

/-- Walking the `prev` links from the target accumulates a genuine path whose
cost telescopes to the recorded distance of the target. -/
theorem reconLoop_cost (g : List (Int × List (Int × α))) (dist : List (Int × α))
    (prev : List (Int × Int)) (t : Int) (dT : α) (hdT : dget dist t = some dT)
    (HJ6 : ∀ v u, dget prev v = some u → ∃ du c, dget dist u = some du ∧
      edgeWeight g u v = some c ∧ dget dist v = some (du + c)) :
    ∀ (fuel : Nat) (cur : Int) (path : List Int) (dcur : α) (p : List Int),
    dget dist cur = some dcur →
    path.getLast? = some cur →
    IsPathFrom g cur t path.reverse →
    pathCost g path.reverse = dT - dcur →
    reconLoop prev 0 fuel cur path = Except.ok p →
    ∃ d0, dget dist 0 = some d0 ∧ IsPathFrom g 0 t p ∧ pathCost g p = dT - d0 := by
  intro fuel
  induction fuel with
  | zero =>
    intro cur path dcur p _ _ _ _ h
    exact Except.noConfusion h
  | succ f ih =>
    intro cur path dcur p hdcur hlast hpath hcost h
    rw [reconLoop] at h
    by_cases hc0 : cur = 0
    · rw [if_pos hc0] at h
      obtain rfl := Except.ok.inj h
      subst hc0
      exact ⟨dcur, hdcur, hpath, hcost⟩
    · rw [if_neg hc0] at h
      cases hprev : dget prev cur with
      | none =>
        rw [hprev] at h
        exact Except.noConfusion h
      | some u =>
        rw [hprev] at h
        dsimp only at h
        obtain ⟨du, c, hdu, hedge, hdcur2⟩ := HJ6 cur u hprev
        obtain rfl : dcur = du + c := by
          rw [hdcur] at hdcur2
          exact Option.some_inj.mp hdcur2
        have hrevcons : (path ++ [u]).reverse = u :: path.reverse := by
          rw [List.reverse_append]
          rfl
        obtain ⟨hpath', hcost'⟩ := isPathFrom_cons g path.reverse u cur t c hedge hpath
        refine ih u (path ++ [u]) du p hdu (List.getLast?_concat _) ?_ ?_ h
        · rw [hrevcons]
          exact hpath'
        · rw [hrevcons, hcost', hcost]
          ring

/-- Every edge of the segment graph goes from a smaller to a larger vertex. -/
theorem partitionGraph_edge_up (tags : List Tag) (noFrames : Int) (ct : List (String × α))
    (dc pen : α) :
    ∀ u v c, edgeWeight (partitionGraph tags noFrames ct dc pen) u v = some c → u < v := by
  intro u v c hc
  rw [edgeWeight_partitionGraph] at hc
  by_cases hcond : u ∈ cuttingPoints tags noFrames ∧ v ∈ cuttingPoints tags noFrames ∧ u < v
  · exact hcond.2.2
  · rw [if_neg hcond] at hc
    exact absurd hc (by simp)

/-- With non-negative cost table, default cost and penalty, every edge weight
of the segment graph is non-negative. -/
theorem partitionGraph_edge_nonneg (tags : List Tag) (noFrames : Int)
    (ct : List (String × α)) (dc pen : α)
    (hct : ∀ kv ∈ ct, 0 ≤ kv.2) (hdc : 0 ≤ dc) (hpen : 0 ≤ pen) :
    ∀ u v c, edgeWeight (partitionGraph tags noFrames ct dc pen) u v = some c → 0 ≤ c := by
  intro u v c hc
  rw [edgeWeight_partitionGraph] at hc
  by_cases hcond : u ∈ cuttingPoints tags noFrames ∧ v ∈ cuttingPoints tags noFrames ∧ u < v
  · rw [if_pos hcond] at hc
    obtain rfl := Option.some_inj.mp hc.symm
    exact add_nonneg hpen (segCost_nonneg tags ct dc u v (le_of_lt hcond.2.2) hct hdc)
  · rw [if_neg hcond] at hc
    exact absurd hc (by simp)

/-- Whenever `partition` returns a division at all — for any non-negative
cost table, default cost and penalty — the returned list is a path from `0`
to `no_frames` in the segment graph of minimum total weight. -/
theorem partition_optimal (tags : List Tag) (noFrames : Int) (ct : List (String × α))
    (dc pen : α) (hct : ∀ kv ∈ ct, 0 ≤ kv.2) (hdc : 0 ≤ dc) (hpen : 0 ≤ pen)
    (pth : List Int) (hok : partition tags noFrames ct dc pen = Except.ok pth) :
    IsPathFrom (partitionGraph tags noFrames ct dc pen) 0 noFrames pth ∧
      ∀ q, IsPathFrom (partitionGraph tags noFrames ct dc pen) 0 noFrames q →
        pathCost (partitionGraph tags noFrames ct dc pen) pth ≤
          pathCost (partitionGraph tags noFrames ct dc pen) q := by
  have HW := partitionGraph_edge_nonneg tags noFrames ct dc pen hct hdc hpen
  rw [partition, dijkstra, ← partitionGraph] at hok
  cases hloop : dijkstraLoop (partitionGraph tags noFrames ct dc pen) noFrames
      ((initUnvisited (partitionGraph tags noFrames ct dc pen)).length + 2)
      (initUnvisited (partitionGraph tags noFrames ct dc pen))
      (dinsert ([] : List (Int × α)) 0 0) [] 0 with
  | error e =>
    rw [hloop, except_error_bind] at hok
    exact Except.noConfusion hok
  | ok res =>
    rw [hloop, except_ok_bind] at hok
    by_cases hres : res.2.2 = noFrames
    · rw [if_pos hres] at hok
      obtain ⟨hresT, ⟨dT, hdT, hTEx⟩, hJ6F, hJ9F⟩ :=
        dijkstraLoop_optimal (partitionGraph tags noFrames ct dc pen) noFrames
          (partitionGraph_adj tags noFrames ct dc pen)
          (partitionGraph_edge_up tags noFrames ct dc pen)
          HW
          ((initUnvisited (partitionGraph tags noFrames ct dc pen)).length + 2)
          (initUnvisited (partitionGraph tags noFrames ct dc pen))
          (dinsert ([] : List (Int × α)) 0 0) [] 0 res hloop
          (initUnvisited_nodup _)
          (fun v hv => hv)
          (fun v hvV hv => absurd hvV hv)
          ⟨0, dget_dinsert_self _ _ _,
            fun p hp => pathCost_nonneg _ HW p hp.2.2,
            ⟨[0], isPathFrom_single _ 0, rfl⟩⟩
          (by
            intro v dv hdv
            by_cases hv : v = 0
            · subst hv
              rw [dget_dinsert_self] at hdv
              obtain rfl := Option.some_inj.mp hdv.symm
              exact ⟨[0], isPathFrom_single _ 0, rfl⟩
            · rw [dget_dinsert_ne _ _ _ _ (fun hc => hv hc.symm)] at hdv
              simp [dget] at hdv)
          (by
            intro x dx hx hdx y c hedge
            exact absurd (mem_initUnvisited_of_edge _ x y c hedge).1 hx)
          (by
            intro v u hpv
            simp [dget] at hpv)
          (by
            intro v dv hdv
            by_cases hv : v = 0
            · exact Or.inl hv
            · rw [dget_dinsert_ne _ _ _ _ (fun hc => hv hc.symm)] at hdv
              simp [dget] at hdv)
          (Or.inr rfl)
          (dget_dinsert_self _ _ _)
      obtain ⟨d0, hd0, hppath, hpcost⟩ :=
        reconLoop_cost (partitionGraph tags noFrames ct dc pen) res.1 res.2.1
          noFrames dT hdT hJ6F (res.2.1.length + 2) noFrames [noFrames] dT pth hdT
          rfl
          (isPathFrom_single _ noFrames)
          (by rw [List.reverse_singleton, pathCost_one]; ring)
          hok
      obtain rfl : d0 = 0 := by
        rw [hJ9F] at hd0
        exact (Option.some_inj.mp hd0).symm
      refine ⟨hppath, ?_⟩
      intro q hq
      rw [hpcost]
      have := hTEx.1 q hq
      linarith
    · rw [if_neg hres] at hok
      exact Except.noConfusion hok

end DLS

namespace DLS

variable {α : Type} [LinearOrderedCommRing α]

/-- The edge set of the segment graph does not depend on the penalty (or the
costs): an edge `u → v` exists exactly when `u` and `v` are cutting points
with `u < v`. -/
theorem edgeWeight_partitionGraph_isSome (tags : List Tag) (noFrames : Int)
    (ct : List (String × α)) (dc pen : α) (u v : Int) :
    (edgeWeight (partitionGraph tags noFrames ct dc pen) u v).isSome ↔
      (u ∈ cuttingPoints tags noFrames ∧ v ∈ cuttingPoints tags noFrames ∧ u < v) := by
  rw [edgeWeight_partitionGraph]
  by_cases hcond : u ∈ cuttingPoints tags noFrames ∧ v ∈ cuttingPoints tags noFrames ∧ u < v
  · rw [if_pos hcond]
    simp [hcond]
  · rw [if_neg hcond]
    simp [hcond]

theorem isPathFrom_chain_cond (tags : List Tag) (noFrames : Int) (ct : List (String × α))
    (dc pen : α) (s t : Int) (q : List Int)
    (hq : IsPathFrom (partitionGraph tags noFrames ct dc pen) s t q) :
    q.Chain' (fun u v => u ∈ cuttingPoints tags noFrames ∧
      v ∈ cuttingPoints tags noFrames ∧ u < v) :=
  List.Chain'.imp
    (fun a b h => (edgeWeight_partitionGraph_isSome tags noFrames ct dc pen a b).mp h)
    hq.2.2

/-- Being a path in the segment graph is independent of the penalty. -/
theorem isPathFrom_partitionGraph_penalty (tags : List Tag) (noFrames : Int)
    (ct : List (String × α)) (dc p1 p2 : α) (s t : Int) (q : List Int)
    (hq : IsPathFrom (partitionGraph tags noFrames ct dc p1) s t q) :
    IsPathFrom (partitionGraph tags noFrames ct dc p2) s t q := by
  obtain ⟨hh, hl, hch⟩ := hq
  refine ⟨hh, hl, ?_⟩
  refine List.Chain'.imp ?_ hch
  intro a b h
  exact (edgeWeight_partitionGraph_isSome tags noFrames ct dc p2 a b).mpr
    ((edgeWeight_partitionGraph_isSome tags noFrames ct dc p1 a b).mp h)

/-- Along a fixed path, changing the penalty from `p1` to `p2` changes the
cost by `(p2 - p1) * (number of edges)`. -/
theorem pathCost_partitionGraph_penalty (tags : List Tag) (noFrames : Int)
    (ct : List (String × α)) (dc p1 p2 : α) :
    ∀ q : List Int,
    q.Chain' (fun u v => u ∈ cuttingPoints tags noFrames ∧
      v ∈ cuttingPoints tags noFrames ∧ u < v) →
    pathCost (partitionGraph tags noFrames ct dc p2) q =
      pathCost (partitionGraph tags noFrames ct dc p1) q +
        (p2 - p1) * ((q.length - 1 : Nat) : α) := by
  intro q
  induction q with
  | nil =>
    intro _
    rw [pathCost_nil, pathCost_nil]
    simp
  | cons u rest ih =>
    intro hch
    cases rest with
    | nil =>
      rw [pathCost_one, pathCost_one]
      simp
    | cons v rest' =>
      obtain ⟨hcond, hch'⟩ := List.chain'_cons.mp hch
      have h1 : edgeWeight (partitionGraph tags noFrames ct dc p1) u v =
          some (p1 + segCost tags ct dc u v) := by
        rw [edgeWeight_partitionGraph, if_pos hcond]
      have h2 : edgeWeight (partitionGraph tags noFrames ct dc p2) u v =
          some (p2 + segCost tags ct dc u v) := by
        rw [edgeWeight_partitionGraph, if_pos hcond]
      rw [pathCost_cons, pathCost_cons, h1, h2, Option.getD_some, Option.getD_some,
        ih hch']
      have hlen : ((u :: v :: rest').length - 1 : Nat) =
          ((v :: rest').length - 1 : Nat) + 1 := by
        simp
      rw [hlen]
      push_cast
      ring

/-- Claim C6 (confirmed): with tags, frame count, cost table and default cost
held fixed, all non-negative, and two penalties `p1 ≤ p2`, the division
returned under the larger penalty is never longer than the one returned
under the smaller penalty.  Both returned lists start at the implicit `0`
and end at `no_frames`, so any consistent count of cuts is monotone in the
list length.  The proof is the exchange argument over the two optimal paths:
`cost_p(path) = base(path) + p * edges(path)` and each returned path is a
minimum-cost path for its own penalty. -/
theorem claim_C6_penalty_monotone (tags : List Tag) (noFrames : Int)
    (ct : List (String × α)) (dc p1 p2 : α)
    (hnf : 0 < noFrames)
    (hb : ∀ t ∈ tags, 0 ≤ t.2.1 ∧ t.2.1 ≤ noFrames ∧ 0 ≤ t.2.2 ∧ t.2.2 ≤ noFrames)
    (hct : ∀ kv ∈ ct, 0 ≤ kv.2) (hdc : 0 ≤ dc) (hp1 : 0 ≤ p1) (hple : p1 ≤ p2)
    (pth1 pth2 : List Int)
    (h1 : partition tags noFrames ct dc p1 = Except.ok pth1)
    (h2 : partition tags noFrames ct dc p2 = Except.ok pth2) :
    pth2.length ≤ pth1.length := by
  rcases eq_or_lt_of_le hple with rfl | hlt
  · rw [h1] at h2
    obtain rfl := Except.ok.inj h2
    exact le_refl _
  · obtain ⟨hP1, hmin1⟩ := partition_optimal tags noFrames ct dc p1 hct hdc hp1 pth1 h1
    obtain ⟨hP2, hmin2⟩ := partition_optimal tags noFrames ct dc p2 hct hdc
      (le_trans hp1 hple) pth2 h2
    have hP1₂ := isPathFrom_partitionGraph_penalty tags noFrames ct dc p1 p2 0 noFrames
      pth1 hP1
    have hP2₁ := isPathFrom_partitionGraph_penalty tags noFrames ct dc p2 p1 0 noFrames
      pth2 hP2
    have hA := hmin1 pth2 hP2₁
    have hB := hmin2 pth1 hP1₂
    have hC := pathCost_partitionGraph_penalty tags noFrames ct dc p1 p2 pth1
      (isPathFrom_chain_cond tags noFrames ct dc p1 0 noFrames pth1 hP1)
    have hD := pathCost_partitionGraph_penalty tags noFrames ct dc p1 p2 pth2
      (isPathFrom_chain_cond tags noFrames ct dc p2 0 noFrames pth2 hP2)
    rw [hC, hD] at hB
    have hEe : (p2 - p1) * ((pth2.length - 1 : Nat) : α) ≤
        (p2 - p1) * ((pth1.length - 1 : Nat) : α) := by linarith
    have hcast : ((pth2.length - 1 : Nat) : α) ≤ ((pth1.length - 1 : Nat) : α) :=
      le_of_mul_le_mul_left hEe (by linarith)
    have hlen : (pth2.length - 1 : Nat) ≤ (pth1.length - 1 : Nat) := Nat.cast_le.mp hcast
    have hne1 : pth1 ≠ [] := by
      intro hcon
      rw [hcon] at hP1
      exact absurd hP1.1 (by simp)
    have hne2 : pth2 ≠ [] := by
      intro hcon
      rw [hcon] at hP2
      exact absurd hP2.1 (by simp)
    have hl1 : 0 < pth1.length := List.length_pos.mpr hne1
    have hl2 : 0 < pth2.length := List.length_pos.mpr hne2
    omega

/-- Witness for C6: a concrete well-formed input where raising the penalty
from `0` to `6` shrinks the division from `[0, 1, 2]` to `[0, 2]`. -/
theorem claim_C6_penalty_monotone_witness :
    ((0 : Int) < 2 ∧
      (∀ t ∈ [(("a" : String), (0 : Int), (1 : Int))],
        0 ≤ t.2.1 ∧ t.2.1 ≤ 2 ∧ 0 ≤ t.2.2 ∧ t.2.2 ≤ 2) ∧
      (∀ kv ∈ ([] : List (String × Int)), 0 ≤ kv.2) ∧
      (0 : Int) ≤ 5 ∧ (0 : Int) ≤ 0 ∧ (0 : Int) ≤ 6 ∧
      partition [("a", 0, 1)] 2 ([] : List (String × Int)) 5 0 = Except.ok [0, 1, 2] ∧
      partition [("a", 0, 1)] 2 ([] : List (String × Int)) 5 6 = Except.ok [0, 2]) ∧
    ([0, 2] : List Int).length ≤ ([0, 1, 2] : List Int).length :=
  ⟨⟨by decide, by decide, by decide, by decide, by decide, by decide, rfl, rfl⟩,
    claim_C6_penalty_monotone [("a", 0, 1)] 2 ([] : List (String × Int)) 5 0 6
      (by decide) (by decide) (by decide) (by decide) (by decide) (by decide)
      [0, 1, 2] [0, 2] rfl rfl⟩

end DLS
